import Mathlib

/-!
Shallow embedding of the Davis-Putnam CNF solver in src/main.cpp.

A `std::set` is modelled by the sorted duplicate-free list its iteration
presents, so `Clause`, `NormalForm`, and the two literal sets of the `DP`
struct become lists.  The uninitialized `bool conflict` stack slot that
`solve` and `solveRec` read after `removeUnitClauses` respectively
`removeFalseLiterals` (which only ever assign `true` to it) is modelled by
the explicit parameter `g` holding the indeterminate initial value; the
call stack of the mutually recursive `solve`/`solveRec` pair is modelled
by a fuel parameter (`none` meaning the fuel bound was reached).
-/

namespace DP

abbrev Clause := List Int

abbrev NormalForm := List Clause

abbrev LitSet := List Int

/-- Insertion into a sorted duplicate-free list of literals at its ordered
position; together with the membership test in `insertLit` this is
`std::set<Literal>::insert` acting on the iteration list. -/
def insLitAux (l : Int) : List Int → List Int
  | [] => [l]
  | x :: s => if l < x then l :: x :: s else x :: insLitAux l s

/-- `std::set<Literal>::insert`: no change when the element is present. -/
def insertLit (l : Int) (s : List Int) : List Int :=
  if l ∈ s then s else insLitAux l s

/-- `std::less<std::set<int>>`: lexicographic comparison of the sorted
element sequences of two clauses. -/
def clauseLtb : List Int → List Int → Bool
  | [], [] => false
  | [], _ :: _ => true
  | _ :: _, [] => false
  | a :: as, b :: bs => if a < b then true else if b < a then false else clauseLtb as bs

def insClauseAux (c : Clause) : NormalForm → NormalForm
  | [] => [c]
  | d :: f => if clauseLtb c d then c :: d :: f else d :: insClauseAux c f

/-- `std::set<Clause>::insert`: no change when the clause is present. -/
def insertClause (c : Clause) (f : NormalForm) : NormalForm :=
  if c ∈ f then f else insClauseAux c f

/-- `DP::isTautologicClause`: scan the clause keeping the set of literals
seen so far and report true when the negation of the current literal has
been seen. -/
def isTautologicAux (seen : List Int) : List Int → Bool
  | [] => false
  | l :: rest => if -l ∈ seen then true else isTautologicAux (insertLit l seen) rest

def isTautologicClause (c : Clause) : Bool :=
  isTautologicAux [] c

/-- `DP::removeAllTautologyClauses`: erase every tautological clause. -/
def removeAllTautologyClauses (f : NormalForm) : NormalForm :=
  f.filter (fun c => ! isTautologicClause c)

/-- `DP::isUnitClause`. -/
def isUnitClause (c : Clause) : Bool :=
  c.length = 1

/-- Measure for the `removeFalseLiterals` loop: total literal count of the
formula, counting each clause once more so erasing a clause always shrinks
the measure. -/
def massF (f : NormalForm) : Nat :=
  (f.map (fun c => c.length + 1)).sum

/-- The loop of `DP::removeFalseLiterals` as a zipper over the clause set:
`done` holds the clauses before the iterator, `todo` those from the
iterator on.  A clause containing a false literal is erased; its filtered
remainder is dropped with a conflict when empty, recorded into the false
literals and the iteration restarted from `begin` when a unit, and
otherwise re-inserted at its ordered position (visited again only when it
sorts after the iterator, as with `std::set::insert` during iteration). -/
def rflLoop (done todo : NormalForm) (fls : LitSet) : NormalForm × LitSet × Bool :=
  match todo with
  | [] => (done, fls, false)
  | c :: rest =>
    if h : c.any fun l => decide (l ∈ fls) then
      let newC := c.filter fun l => ! decide (l ∈ fls)
      if newC = [] then (done ++ c :: rest, fls, true)
      else if isUnitClause newC then
        rflLoop [] (done ++ rest) (insertLit (-(newC.headD 0)) fls)
      else if newC ∈ done ∨ newC ∈ rest then
        rflLoop done rest fls
      else if rest = [] ∨ clauseLtb newC (rest.headD []) then
        rflLoop (insClauseAux newC done) rest fls
      else
        rflLoop done (insClauseAux newC rest) fls
    else rflLoop (done ++ [c]) rest fls
  termination_by (massF done + massF todo, todo.length)
  decreasing_by
  all_goals
    have hfilt : ∀ (p : Int → Bool) (cc : List Int), cc.any p = true →
        (cc.filter fun l => ! p l).length < cc.length := by
      intro p cc hcc
      induction cc with
      | nil => simp at hcc
      | cons x xs ih =>
        by_cases hx : p x
        · simp only [List.filter_cons, hx, Bool.not_true, List.length_cons]
          exact Nat.lt_succ_of_le (List.length_filter_le _ xs)
        · simp only [List.any_cons, hx, Bool.false_or] at hcc
          simp only [List.filter_cons, hx, Bool.not_false, List.length_cons]
          exact Nat.succ_lt_succ (ih hcc)
    have hA : ∀ (g1 g2 : NormalForm), massF (g1 ++ g2) = massF g1 + massF g2 := by
      intro g1 g2
      simp only [massF, List.map_append, List.sum_append]
    have hC : ∀ (cc : Clause) (g : NormalForm), massF (cc :: g) = cc.length + 1 + massF g := by
      intro cc g
      simp only [massF, List.map_cons, List.sum_cons]
    have hN : massF [] = 0 := rfl
    have hmass : ∀ (nc : Clause) (g : NormalForm),
        massF (insClauseAux nc g) = nc.length + 1 + massF g := by
      intro nc g
      induction g with
      | nil =>
        rw [show insClauseAux nc [] = [nc] from rfl, hC, hN]
      | cons d gs ih =>
        simp only [insClauseAux]
        by_cases hc : clauseLtb nc d = true
        · rw [if_pos hc]
          simp only [hC]
          try omega
        · rw [if_neg hc]
          simp only [hC, ih]
          try omega
    simp only [Prod.lex_def]
    try have hs := hfilt _ _ h
    simp only [hA, hC, hN, hmass, List.length_cons, List.length_nil]
    omega

/-- `DP::removeFalseLiterals`, starting the iteration at `f.begin()`. -/
def removeFalseLiterals (f : NormalForm) (fls : LitSet) : NormalForm × LitSet × Bool :=
  rflLoop [] f fls

/-- The first loop of `DP::removeUnitClauses`: erase every unit clause,
recording the negation of its literal as false, with a conflict when the
literal itself is already false; afterwards remove false literals when any
were recorded. -/
def rucLoop (done todo : NormalForm) (fls : LitSet) : NormalForm × LitSet × Bool :=
  match todo with
  | [] => if fls ≠ [] then removeFalseLiterals done fls else (done, fls, false)
  | c :: rest =>
    if isUnitClause c then
      if c.headD 0 ∈ fls then (done ++ c :: rest, fls, true)
      else rucLoop done rest (insertLit (-(c.headD 0)) fls)
    else rucLoop (done ++ [c]) rest fls

/-- `DP::removeUnitClauses`; the returned Bool is true exactly when the
function assigned `true` to its `conflict` out-parameter (it never assigns
`false`, so on a conflict-free run the caller's slot keeps its previous
content). -/
def removeUnitClauses (f : NormalForm) (fls : LitSet) : NormalForm × LitSet × Bool :=
  rucLoop [] f fls

/-- `DP::isPureLiteral`: no clause of the formula contains the negation. -/
def isPureLiteral (l : Int) (f : NormalForm) : Bool :=
  f.all fun c => ! decide ((-l) ∈ c)

/-- `DP::removePureClausesByLiteral`: erase every clause containing the
literal. -/
def removePureClausesByLiteral (f : NormalForm) (pureLit : Int) : NormalForm :=
  f.filter fun c => ! decide (pureLit ∈ c)

/-- `DP::removePureClauses`: walk the literal universe in its set order and
purge the clauses of every literal that is pure in the current formula. -/
def removePureClauses (lits : LitSet) (f : NormalForm) : NormalForm :=
  lits.foldl (fun g l => if isPureLiteral l g then removePureClausesByLiteral g l else g) f

/-- `DP::allClausesWithGivenLiteral`. -/
def allClausesWithGivenLiteral (f : NormalForm) (target : Int) : List Clause :=
  f.filter fun c => decide (target ∈ c)

/-- One side of `DP::resolve`: insert into the accumulator every literal of
the clause other than the target and its negation. -/
def addResolventLits (target : Int) (c : Clause) (r : Clause) : Clause :=
  c.foldl (fun r l => if l ≠ target ∧ l ≠ -target then insertLit l r else r) r

/-- `DP::resolve`. -/
def resolve (first second : Clause) (target : Int) : Clause :=
  if target ∈ first ∧ -target ∈ second then
    addResolventLits target second (addResolventLits target first [])
  else []

/-- `std::abs` on a literal. -/
def iabs (l : Int) : Int :=
  if l < 0 then -l else l

/-- The count `DP::maximumOccurrence` associates to an atom: the number of
literal occurrences whose absolute value is the atom. -/
def occCount (f : NormalForm) (a : Int) : Nat :=
  (f.map fun c => c.countP fun l => decide (iabs l = a)).sum

/-- The key list of the map built by `DP::maximumOccurrence`: the atoms
occurring in the formula in increasing order. -/
def atomsOf (f : NormalForm) : List Int :=
  f.foldl (fun s c => c.foldl (fun s l => insertLit (iabs l) s) s) []

/-- The order in which `DP::solveRec` iterates the occurrence map with
`rbegin()`/`rend()`: its keys in decreasing order. -/
def atomOrder (f : NormalForm) : List Int :=
  (atomsOf f).reverse

/-- Erasing both literals of an atom from a literal set, as done for
`literals` and `falseLiterals` after an atom has been resolved away. -/
def eliminateLits (s : LitSet) (a : Int) : LitSet :=
  (s.erase a).erase (-a)

/-- Erasing a list of clauses from the formula, as done for the clauses
used in resolution. -/
def eraseClauses (cs : List Clause) (f : NormalForm) : NormalForm :=
  cs.foldl (fun g c => g.erase c) f

/-- Result of the resolvent double loop of `DP::solveRec`: resolution met
an empty resolvent, or a unit resolvent (after recording it false and
removing false literals, with the conflict flag as read by the caller), or
every pair was processed. -/
inductive ResOut where
  | emptyClause : ResOut
  | unitClause (f : NormalForm) (fls : LitSet) (conflict : Bool) : ResOut
  | ok (f : NormalForm) : ResOut

/-- Inner loop of `DP::solveRec`'s resolvent generation: resolve the fixed
clause `c1` against each clause of `cwo` in turn. -/
def resolveWithAll (a : Int) (c1 : Clause) (cwo : List Clause) (f : NormalForm)
    (fls : LitSet) : ResOut :=
  match cwo with
  | [] => ResOut.ok f
  | c2 :: rest =>
    if resolve c1 c2 a = [] then ResOut.emptyClause
    else if isUnitClause (resolve c1 c2 a) then
      match removeFalseLiterals f (insertLit (-((resolve c1 c2 a).headD 0)) fls) with
      | (f1, fls2, confl) => ResOut.unitClause f1 fls2 confl
    else if isTautologicClause (resolve c1 c2 a) then resolveWithAll a c1 rest f fls
    else resolveWithAll a c1 rest (insertClause (resolve c1 c2 a) f) fls

/-- Outer loop of `DP::solveRec`'s resolvent generation over the clauses
containing the positive literal. -/
def resolveAllPairs (a : Int) (cw cwo : List Clause) (f : NormalForm)
    (fls : LitSet) : ResOut :=
  match cw with
  | [] => ResOut.ok f
  | c1 :: rest =>
    match resolveWithAll a c1 cwo f fls with
    | ResOut.ok f1 => resolveAllPairs a rest cwo f1 fls
    | out => out

mutual

/-- `DP::solveRec`, with fuel for the recursion and `g` the indeterminate
value of the uninitialized `conflict` variable it reads. -/
def solveRec (g : Bool) (fuel : Nat) (f : NormalForm) (lits fls : LitSet) : Option Bool :=
  match fuel with
  | 0 => none
  | fuel + 1 =>
    let f1 := removePureClauses lits f
    if f1 = [] then some true
    else if f1 = [[]] then some false
    else atomLoop g fuel (atomOrder f1) false f1 lits fls
  termination_by (fuel, 0)

/-- The loop of `DP::solveRec` over the occurrence map in decreasing key
order: skip atoms one of whose literal polarities has no clauses, and
otherwise run the resolvent double loop, returning early on an empty or
unit resolvent and completing an elimination otherwise. -/
def atomLoop (g : Bool) (fuel : Nat) (atoms : List Int) (found : Bool) (f : NormalForm)
    (lits fls : LitSet) : Option Bool :=
  match atoms with
  | [] => if !found then some true else solve g fuel f lits fls
  | a :: rest =>
    let cw := allClausesWithGivenLiteral f a
    let cwo := allClausesWithGivenLiteral f (-a)
    if cw = [] ∨ cwo = [] then atomLoop g fuel rest found f lits fls
    else
      match resolveAllPairs a cw cwo f fls with
      | ResOut.emptyClause => some false
      | ResOut.unitClause f1 fls1 confl =>
        if confl || g then some false else solveRec g fuel f1 lits fls1
      | ResOut.ok f1 =>
        atomLoop g fuel rest true (eraseClauses cwo (eraseClauses cw f1))
          (eliminateLits lits a) (eliminateLits fls a)
  termination_by (fuel, atoms.length + 1)

/-- `DP::solve`, with fuel for the recursion and `g` the indeterminate
value of the uninitialized `conflict` variable it reads. -/
def solve (g : Bool) (fuel : Nat) (f : NormalForm) (lits fls : LitSet) : Option Bool :=
  match fuel with
  | 0 => none
  | fuel + 1 =>
    let f1 := removeAllTautologyClauses f
    match removeUnitClauses f1 fls with
    | (f2, fls2, detected) =>
      if detected || g then some false else solveRec g fuel f2 lits fls2
  termination_by (fuel, 0)

end

/-- Reading one clause of the DIMACS body in `DP::parse`: literals up to
the `0` terminator are inserted into the literal universe and the clause. -/
def parseClause (toks : List Int) (c : Clause) (lits : LitSet) :
    Clause × LitSet × List Int :=
  match toks with
  | [] => (c, lits, [])
  | l :: rest =>
    if l = 0 then (c, lits, rest)
    else parseClause rest (insertLit l c) (insertLit l lits)

/-- The clause-reading loop of `DP::parse`. -/
def parseLoop (count : Nat) (toks : List Int) (f : NormalForm) (lits : LitSet) :
    NormalForm × LitSet :=
  match count with
  | 0 => (f, lits)
  | n + 1 =>
    match parseClause toks [] lits with
    | (c, lits1, rest) => parseLoop n rest (insertClause c f) lits1

/-- `DP::parse` after the header: read `count` clauses from the token
stream, returning the formula and the literal universe. -/
def parse (count : Nat) (toks : List Int) : NormalForm × LitSet :=
  parseLoop count toks [] []

/-- Truth value of a literal under an assignment of atoms to Booleans. -/
def litTrue (v : Int → Bool) (l : Int) : Bool :=
  if 0 < l then v l else ! v (-l)

/-- A clause is satisfied when some literal of it is true. -/
def clauseSat (v : Int → Bool) (c : Clause) : Bool :=
  c.any (litTrue v)

/-- A formula is satisfied when every clause of it is satisfied. -/
def formulaSat (v : Int → Bool) (f : NormalForm) : Bool :=
  f.all (clauseSat v)

/-- Satisfiability of a CNF formula. -/
def satisfiable (f : NormalForm) : Prop :=
  ∃ v, formulaSat v f = true

/-- Every literal occurring in the formula belongs to the literal set:
the literal-universe invariant of the `DP` struct. -/
def LitsClosed (f : NormalForm) (lits : LitSet) : Prop :=
  ∀ c ∈ f, ∀ l ∈ c, l ∈ lits

/-- No clause of the formula mentions a literal of the false-literal set. -/
def FlsClean (f : NormalForm) (fls : LitSet) : Prop :=
  ∀ c ∈ f, ∀ l ∈ c, l ∉ fls

/-- Clauses of a well-formed input contain no literal `0`. -/
def ZeroFree (f : NormalForm) : Prop :=
  ∀ c ∈ f, (0 : Int) ∉ c

/-- Termination measure for the `solve`/`solveRec` recursion: the literal
universe size dominates, and within a fixed universe the number of
universe literals whose negation is not yet a false literal decreases
whenever a unit resolvent is recorded. -/
def solveMeasure (lits fls : LitSet) : Nat :=
  lits.length * (lits.length + 1) + (lits.filter fun l => ! decide ((-l) ∈ fls)).length

theorem mem_insLitAux {x l : Int} {s : List Int} : x ∈ insLitAux l s ↔ x = l ∨ x ∈ s := by
  induction s with
  | nil => simp [insLitAux]
  | cons y t ih =>
    by_cases h : l < y
    · simp [insLitAux, h]
    · simp only [insLitAux, if_neg h, List.mem_cons, ih]
      tauto

theorem mem_insertLit {x l : Int} {s : List Int} : x ∈ insertLit l s ↔ x = l ∨ x ∈ s := by
  unfold insertLit
  by_cases h : l ∈ s
  · simp only [if_pos h]
    constructor
    · exact Or.inr
    · rintro (rfl | hx)
      · exact h
      · exact hx
  · rw [if_neg h]
    exact mem_insLitAux

theorem insLitAux_perm (l : Int) (s : List Int) : (insLitAux l s).Perm (l :: s) := by
  induction s with
  | nil => simp [insLitAux]
  | cons y t ih =>
    by_cases h : l < y
    · simp [insLitAux, h]
    · rw [insLitAux, if_neg h]
      exact (ih.cons y).trans (List.Perm.swap l y t)

theorem nodup_insertLit {l : Int} {s : List Int} (h : s.Nodup) : (insertLit l s).Nodup := by
  unfold insertLit
  by_cases hm : l ∈ s
  · rwa [if_pos hm]
  · rw [if_neg hm]
    exact ((insLitAux_perm l s).nodup_iff).mpr (by simp [h, hm])

theorem mem_insClauseAux {d c : Clause} {f : NormalForm} :
    d ∈ insClauseAux c f ↔ d = c ∨ d ∈ f := by
  induction f with
  | nil => simp [insClauseAux]
  | cons e t ih =>
    by_cases h : clauseLtb c e = true
    · simp [insClauseAux, h]
    · simp only [insClauseAux, if_neg h, List.mem_cons, ih]
      tauto

theorem insClauseAux_perm (c : Clause) (f : NormalForm) :
    (insClauseAux c f).Perm (c :: f) := by
  induction f with
  | nil => simp [insClauseAux]
  | cons e t ih =>
    by_cases h : clauseLtb c e = true
    · simp [insClauseAux, h]
    · rw [insClauseAux, if_neg h]
      exact (ih.cons e).trans (List.Perm.swap c e t)

theorem mem_insertClause {d c : Clause} {f : NormalForm} :
    d ∈ insertClause c f ↔ d = c ∨ d ∈ f := by
  unfold insertClause
  by_cases h : c ∈ f
  · simp only [if_pos h]
    constructor
    · exact Or.inr
    · rintro (rfl | hx)
      · exact h
      · exact hx
  · rw [if_neg h]
    exact mem_insClauseAux

theorem nodup_insertClause {c : Clause} {f : NormalForm} (h : f.Nodup) :
    (insertClause c f).Nodup := by
  unfold insertClause
  by_cases hm : c ∈ f
  · rwa [if_pos hm]
  · rw [if_neg hm]
    exact ((insClauseAux_perm c f).nodup_iff).mpr (by simp [h, hm])

theorem mem_of_mem_eraseClauses {cs : List Clause} {f : NormalForm} {c : Clause} :
    c ∈ eraseClauses cs f → c ∈ f := by
  induction cs generalizing f with
  | nil => exact fun h => h
  | cons d t ih => exact fun h => List.mem_of_mem_erase (ih h)

theorem nodup_eraseClauses {cs : List Clause} {f : NormalForm} (h : f.Nodup) :
    (eraseClauses cs f).Nodup := by
  induction cs generalizing f with
  | nil => exact h
  | cons d t ih => exact ih (h.erase d)

theorem mem_eraseClauses_iff {cs : List Clause} {f : NormalForm} (h : f.Nodup) {c : Clause} :
    c ∈ eraseClauses cs f ↔ c ∈ f ∧ c ∉ cs := by
  induction cs generalizing f with
  | nil => simp [eraseClauses]
  | cons d t ih =>
    show c ∈ eraseClauses t (f.erase d) ↔ _
    rw [ih (h.erase d), h.mem_erase_iff]
    simp only [List.mem_cons]
    tauto

theorem litTrue_neg (v : Int → Bool) {l : Int} (hl : l ≠ 0) :
    litTrue v (-l) = ! litTrue v l := by
  unfold litTrue
  rcases lt_trichotomy l 0 with h | h | h
  · rw [if_pos (by omega), if_neg (by omega)]
    simp
  · exact absurd h hl
  · rw [if_neg (by omega), if_pos h]
    simp

theorem litTrue_flip (v : Int → Bool) {l x : Int} (hx1 : x ≠ l) (hx2 : x ≠ -l) :
    litTrue (fun y => if y = iabs l then decide (0 < l) else v y) x = litTrue v x := by
  have hxa : ¬(x = iabs l) := by unfold iabs; split <;> omega
  have hnxa : ¬(-x = iabs l) := by unfold iabs; split <;> omega
  unfold litTrue
  by_cases h0 : 0 < x
  · rw [if_pos h0, if_pos h0]
    show (if x = iabs l then decide (0 < l) else v x) = v x
    rw [if_neg hxa]
  · rw [if_neg h0, if_neg h0]
    show (!(if -x = iabs l then decide (0 < l) else v (-x))) = !v (-x)
    rw [if_neg hnxa]

theorem litTrue_flip_self (v : Int → Bool) {l : Int} (hl : l ≠ 0) :
    litTrue (fun y => if y = iabs l then decide (0 < l) else v y) l = true := by
  by_cases h0 : 0 < l
  · have hiabs : iabs l = l := by unfold iabs; rw [if_neg (by omega)]
    unfold litTrue
    rw [if_pos h0]
    simp only [hiabs, if_pos rfl]
    exact decide_eq_true h0
  · have hiabs : iabs l = -l := by unfold iabs; rw [if_pos (by omega)]
    unfold litTrue
    rw [if_neg h0]
    simp only [hiabs, if_pos rfl]
    simp [h0]

theorem clauseSat_flip (v : Int → Bool) {l : Int} {c : Clause}
    (h1 : l ∉ c) (h2 : -l ∉ c) :
    clauseSat (fun y => if y = iabs l then decide (0 < l) else v y) c = clauseSat v c := by
  unfold clauseSat
  induction c with
  | nil => rfl
  | cons x t ih =>
    have hx1 : x ≠ l := fun he => h1 (by simp [he])
    have hx2 : x ≠ -l := fun he => h2 (by simp [← he])
    simp only [List.any_cons]
    rw [litTrue_flip v hx1 hx2,
      ih (fun hm => h1 (List.mem_cons_of_mem _ hm)) (fun hm => h2 (List.mem_cons_of_mem _ hm))]

theorem isTautologicAux_sound : ∀ (rest seen : List Int) (c : Clause),
    isTautologicAux seen rest = true → (∀ x ∈ seen, x ∈ c) → (∀ x ∈ rest, x ∈ c) →
    ∃ l ∈ c, -l ∈ c := by
  intro rest
  induction rest with
  | nil =>
    intro seen c h _ _
    simp [isTautologicAux] at h
  | cons l r ih =>
    intro seen c h hseen hrest
    by_cases hn : -l ∈ seen
    · exact ⟨l, hrest l (by simp), hseen _ hn⟩
    · have h' : isTautologicAux (insertLit l seen) r = true := by
        simpa [isTautologicAux, hn] using h
      refine ih (insertLit l seen) c h' ?_ ?_
      · intro x hx
        rcases mem_insertLit.mp hx with rfl | hx2
        · exact hrest _ (by simp)
        · exact hseen _ hx2
      · intro x hx
        exact hrest _ (by simp [hx])

theorem isTautologicAux_complete : ∀ (rest seen : List Int),
    ((∃ l ∈ rest, -l ∈ seen) ∨ (∃ l, l ∈ rest ∧ -l ∈ rest ∧ l ≠ -l)) →
    isTautologicAux seen rest = true := by
  intro rest
  induction rest with
  | nil =>
    intro seen h
    simp at h
  | cons x r ih =>
    intro seen h
    by_cases hn : -x ∈ seen
    · simp [isTautologicAux, hn]
    · simp only [isTautologicAux, if_neg hn]
      apply ih
      rcases h with ⟨l, hl, hls⟩ | ⟨l, hl, hnl, hne⟩
      · rcases List.mem_cons.mp hl with rfl | hlr
        · exact absurd hls hn
        · exact Or.inl ⟨l, hlr, mem_insertLit.mpr (Or.inr hls)⟩
      · rcases List.mem_cons.mp hl with rfl | hlr
        · rcases List.mem_cons.mp hnl with he | hnlr
          · exact absurd he.symm hne
          · exact Or.inl ⟨-l, hnlr, by rw [neg_neg]; exact mem_insertLit.mpr (Or.inl rfl)⟩
        · rcases List.mem_cons.mp hnl with he | hnlr
          · exact Or.inl ⟨l, hlr, mem_insertLit.mpr (Or.inl he)⟩
          · exact Or.inr ⟨l, hlr, hnlr, hne⟩

theorem isTautologicClause_iff {c : Clause} (h0 : (0:Int) ∉ c) :
    isTautologicClause c = true ↔ ∃ l ∈ c, -l ∈ c := by
  constructor
  · intro h
    exact isTautologicAux_sound c [] c h (by simp) (fun x hx => hx)
  · rintro ⟨l, hl, hnl⟩
    apply isTautologicAux_complete c []
    right
    refine ⟨l, hl, hnl, ?_⟩
    intro he
    have hz : l = 0 := by omega
    exact h0 (hz ▸ hl)

theorem satisfiable_removeAllTautologyClauses {f : NormalForm} (h0 : ZeroFree f) :
    satisfiable (removeAllTautologyClauses f) ↔ satisfiable f := by
  constructor
  · rintro ⟨v, hv⟩
    refine ⟨v, ?_⟩
    simp only [formulaSat, List.all_eq_true] at hv ⊢
    intro c hc
    by_cases ht : isTautologicClause c = true
    · rcases (isTautologicClause_iff (h0 c hc)).mp ht with ⟨l, hl, hnl⟩
      have hlz : l ≠ 0 := fun he => h0 c hc (he ▸ hl)
      simp only [clauseSat, List.any_eq_true]
      by_cases hlt : litTrue v l = true
      · exact ⟨l, hl, hlt⟩
      · refine ⟨-l, hnl, ?_⟩
        rw [litTrue_neg v hlz]
        rw [Bool.not_eq_true] at hlt
        simp [hlt]
    · refine hv c ?_
      simp only [removeAllTautologyClauses, List.mem_filter]
      exact ⟨hc, by simp [ht]⟩
  · rintro ⟨v, hv⟩
    refine ⟨v, ?_⟩
    simp only [formulaSat, List.all_eq_true] at hv ⊢
    intro c hc
    exact hv c (List.mem_filter.mp hc).1

theorem removePureClauses_cons (l : Int) (ls : List Int) (f : NormalForm) :
    removePureClauses (l :: ls) f
      = removePureClauses ls (if isPureLiteral l f then removePureClausesByLiteral f l else f) :=
  rfl

theorem removePureClauses_subset {lits : LitSet} {f : NormalForm} {c : Clause} :
    c ∈ removePureClauses lits f → c ∈ f := by
  induction lits generalizing f with
  | nil => exact fun h => h
  | cons l ls ih =>
    intro h
    by_cases hp : isPureLiteral l f = true
    · rw [removePureClauses_cons, if_pos hp] at h
      exact (List.mem_filter.mp (ih h)).1
    · rw [removePureClauses_cons, if_neg hp] at h
      exact ih h

theorem satisfiable_removePureClausesByLiteral {l : Int} {f : NormalForm} (hl : l ≠ 0)
    (hp : isPureLiteral l f = true) :
    satisfiable (removePureClausesByLiteral f l) ↔ satisfiable f := by
  constructor
  · rintro ⟨v, hv⟩
    refine ⟨fun y => if y = iabs l then decide (0 < l) else v y, ?_⟩
    simp only [formulaSat, List.all_eq_true] at hv ⊢
    intro c hc
    by_cases hmem : l ∈ c
    · simp only [clauseSat, List.any_eq_true]
      exact ⟨l, hmem, litTrue_flip_self v hl⟩
    · have hkeep : c ∈ removePureClausesByLiteral f l := by
        simp only [removePureClausesByLiteral, List.mem_filter]
        exact ⟨hc, by simp [hmem]⟩
      have hneg : -l ∉ c := by
        have := (List.all_eq_true.mp hp) c hc
        simpa using this
      rw [clauseSat_flip v hmem hneg]
      exact hv c hkeep
  · rintro ⟨v, hv⟩
    refine ⟨v, ?_⟩
    simp only [formulaSat, List.all_eq_true] at hv ⊢
    intro c hc
    exact hv c (List.mem_filter.mp hc).1

theorem satisfiable_removePureClauses {lits : LitSet} {f : NormalForm} (h0 : ZeroFree f) :
    satisfiable (removePureClauses lits f) ↔ satisfiable f := by
  induction lits generalizing f with
  | nil => exact Iff.rfl
  | cons l ls ih =>
    rw [removePureClauses_cons]
    by_cases hp : isPureLiteral l f = true
    · rw [if_pos hp]
      have h0' : ZeroFree (removePureClausesByLiteral f l) :=
        fun c hc => h0 c (List.mem_filter.mp hc).1
      rw [ih h0']
      by_cases hl : l = 0
      · subst hl
        have hself : removePureClausesByLiteral f 0 = f := by
          apply List.filter_eq_self.mpr
          intro c hc
          simp [h0 c hc]
        rw [hself]
      · exact satisfiable_removePureClausesByLiteral hl hp
    · rw [if_neg hp]
      exact ih h0

theorem isPureLiteral_of_no_neg {a : Int} {f : NormalForm} (h : ∀ c ∈ f, -a ∉ c) :
    isPureLiteral a f = true := by
  simp only [isPureLiteral, List.all_eq_true]
  intro c hc
  simp [h c hc]

theorem removePureClauses_purges {a : Int} : ∀ (lits : LitSet) (f : NormalForm),
    a ∈ lits → (∀ c ∈ f, -a ∉ c) → ∀ c ∈ removePureClauses lits f, a ∉ c := by
  intro lits
  induction lits with
  | nil =>
    intro f h
    simp at h
  | cons l ls ih =>
    intro f hmem hpure c hc
    rw [removePureClauses_cons] at hc
    rcases List.mem_cons.mp hmem with rfl | hmem'
    · rw [if_pos (isPureLiteral_of_no_neg hpure)] at hc
      have hsub := removePureClauses_subset hc
      intro hac
      have hcf := List.mem_filter.mp hsub
      simp [hac] at hcf
    · revert hc
      by_cases hp : isPureLiteral l f = true
      · rw [if_pos hp]
        intro hc
        exact ih _ hmem' (fun d hd => hpure d (List.mem_filter.mp hd).1) c hc
      · rw [if_neg hp]
        intro hc
        exact ih _ hmem' hpure c hc

theorem mem_addResolventLits {t x : Int} : ∀ (c r : Clause),
    x ∈ addResolventLits t c r ↔ x ∈ r ∨ (x ∈ c ∧ x ≠ t ∧ x ≠ -t) := by
  intro c
  induction c with
  | nil =>
    intro r
    simp [addResolventLits]
  | cons l cs ih =>
    intro r
    show x ∈ addResolventLits t cs (if l ≠ t ∧ l ≠ -t then insertLit l r else r) ↔ _
    rw [ih]
    by_cases hl : l ≠ t ∧ l ≠ -t
    · rw [if_pos hl, mem_insertLit]
      simp only [List.mem_cons]
      constructor
      · rintro ((rfl | hx) | ⟨hxc, h1, h2⟩)
        · exact Or.inr ⟨Or.inl rfl, hl⟩
        · exact Or.inl hx
        · exact Or.inr ⟨Or.inr hxc, h1, h2⟩
      · rintro (hx | ⟨rfl | hxc, h1, h2⟩)
        · exact Or.inl (Or.inr hx)
        · exact Or.inl (Or.inl rfl)
        · exact Or.inr ⟨hxc, h1, h2⟩
    · rw [if_neg hl]
      simp only [List.mem_cons]
      constructor
      · rintro (hx | ⟨hxc, h1, h2⟩)
        · exact Or.inl hx
        · exact Or.inr ⟨Or.inr hxc, h1, h2⟩
      · rintro (hx | ⟨rfl | hxc, h1, h2⟩)
        · exact Or.inl hx
        · exact absurd ⟨h1, h2⟩ hl
        · exact Or.inr ⟨hxc, h1, h2⟩

theorem mem_resolve {c1 c2 : Clause} {a x : Int} (h1 : a ∈ c1) (h2 : -a ∈ c2) :
    x ∈ resolve c1 c2 a ↔ (x ∈ c1 ∨ x ∈ c2) ∧ x ≠ a ∧ x ≠ -a := by
  unfold resolve
  rw [if_pos ⟨h1, h2⟩, mem_addResolventLits, mem_addResolventLits]
  simp only [List.not_mem_nil, false_or]
  tauto

theorem resolve_subset {c1 c2 : Clause} {a x : Int} :
    x ∈ resolve c1 c2 a → x ∈ c1 ∨ x ∈ c2 := by
  unfold resolve
  by_cases hg : a ∈ c1 ∧ -a ∈ c2
  · rw [if_pos hg, mem_addResolventLits, mem_addResolventLits]
    simp only [List.not_mem_nil, false_or]
    tauto
  · rw [if_neg hg]
    simp

theorem resolve_not_target {c1 c2 : Clause} {a x : Int} :
    x ∈ resolve c1 c2 a → x ≠ a ∧ x ≠ -a := by
  unfold resolve
  by_cases hg : a ∈ c1 ∧ -a ∈ c2
  · rw [if_pos hg, mem_addResolventLits, mem_addResolventLits]
    simp only [List.not_mem_nil, false_or]
    tauto
  · rw [if_neg hg]
    simp

theorem resolveWithAll_ok_spec {a : Int} {c1 : Clause} : ∀ (cwo : List Clause)
    (f : NormalForm) (fls : LitSet) (f1 : NormalForm),
    resolveWithAll a c1 cwo f fls = ResOut.ok f1 →
    (∀ c ∈ f, c ∈ f1)
    ∧ (∀ c2 ∈ cwo, resolve c1 c2 a ∈ f1 ∨ isTautologicClause (resolve c1 c2 a) = true)
    ∧ (∀ c2 ∈ cwo, resolve c1 c2 a ≠ [] ∧ isUnitClause (resolve c1 c2 a) = false) := by
  intro cwo
  induction cwo with
  | nil =>
    intro f fls f1 h
    simp only [resolveWithAll, ResOut.ok.injEq] at h
    subst h
    exact ⟨fun c hc => hc, by simp, by simp⟩
  | cons c2 rest ih =>
    intro f fls f1 h
    by_cases hr0 : resolve c1 c2 a = []
    · have hstep0 : resolveWithAll a c1 (c2 :: rest) f fls = ResOut.emptyClause := by
        simp only [resolveWithAll]
        rw [if_pos hr0]
      rw [hstep0] at h
      cases h
    · by_cases hru : isUnitClause (resolve c1 c2 a) = true
      · rcases hrf : removeFalseLiterals f (insertLit (-((resolve c1 c2 a).headD 0)) fls)
          with ⟨fa, fb, fc⟩
        have hstepu : resolveWithAll a c1 (c2 :: rest) f fls = ResOut.unitClause fa fb fc := by
          simp only [resolveWithAll]
          rw [if_neg hr0, if_pos hru, hrf]
        rw [hstepu] at h
        cases h
      · by_cases hrt : isTautologicClause (resolve c1 c2 a) = true
        · have hrec : resolveWithAll a c1 rest f fls = ResOut.ok f1 := by
            have hstep : resolveWithAll a c1 (c2 :: rest) f fls
                = resolveWithAll a c1 rest f fls := by
              simp only [resolveWithAll]
              rw [if_neg hr0, if_neg hru, if_pos hrt]
            rw [← hstep]
            exact h
          rcases ih f fls f1 hrec with ⟨hsub, hpairs, hshape⟩
          refine ⟨hsub, ?_, ?_⟩
          · intro d hd
            rcases List.mem_cons.mp hd with rfl | hd'
            · exact Or.inr hrt
            · exact hpairs d hd'
          · intro d hd
            rcases List.mem_cons.mp hd with rfl | hd'
            · exact ⟨hr0, by simp [Bool.not_eq_true] at hru; exact hru⟩
            · exact hshape d hd'
        · have hrec : resolveWithAll a c1 rest (insertClause (resolve c1 c2 a) f) fls
              = ResOut.ok f1 := by
            have hstep : resolveWithAll a c1 (c2 :: rest) f fls
                = resolveWithAll a c1 rest (insertClause (resolve c1 c2 a) f) fls := by
              simp only [resolveWithAll]
              rw [if_neg hr0, if_neg hru, if_neg hrt]
            rw [← hstep]
            exact h
          rcases ih _ fls f1 hrec with ⟨hsub, hpairs, hshape⟩
          refine ⟨?_, ?_, ?_⟩
          · intro c hc
            exact hsub c (mem_insertClause.mpr (Or.inr hc))
          · intro d hd
            rcases List.mem_cons.mp hd with rfl | hd'
            · exact Or.inl (hsub _ (mem_insertClause.mpr (Or.inl rfl)))
            · exact hpairs d hd'
          · intro d hd
            rcases List.mem_cons.mp hd with rfl | hd'
            · exact ⟨hr0, by simp [Bool.not_eq_true] at hru; exact hru⟩
            · exact hshape d hd'

theorem resolveAllPairs_ok_spec {a : Int} : ∀ (cw cwo : List Clause) (f : NormalForm)
    (fls : LitSet) (f1 : NormalForm),
    resolveAllPairs a cw cwo f fls = ResOut.ok f1 →
    (∀ c ∈ f, c ∈ f1)
    ∧ (∀ c1 ∈ cw, ∀ c2 ∈ cwo,
        resolve c1 c2 a ∈ f1 ∨ isTautologicClause (resolve c1 c2 a) = true)
    ∧ (∀ c1 ∈ cw, ∀ c2 ∈ cwo,
        resolve c1 c2 a ≠ [] ∧ isUnitClause (resolve c1 c2 a) = false) := by
  intro cw
  induction cw with
  | nil =>
    intro cwo f fls f1 h
    simp only [resolveAllPairs, ResOut.ok.injEq] at h
    subst h
    exact ⟨fun c hc => hc, by simp, by simp⟩
  | cons c1 rest ih =>
    intro cwo f fls f1 h
    rcases hw : resolveWithAll a c1 cwo f fls with _ | ⟨fa, fb, fc⟩ | fa
    · rw [resolveAllPairs, hw] at h
      cases h
    · rw [resolveAllPairs, hw] at h
      cases h
    · rw [resolveAllPairs, hw] at h
      rcases resolveWithAll_ok_spec cwo f fls fa hw with ⟨hsub1, hpairs1, hshape1⟩
      rcases ih cwo fa fls f1 h with ⟨hsub2, hpairs2, hshape2⟩
      refine ⟨fun c hc => hsub2 c (hsub1 c hc), ?_, ?_⟩
      · intro d hd
        rcases List.mem_cons.mp hd with rfl | hd'
        · intro c2 hc2
          rcases hpairs1 c2 hc2 with hin | ht
          · exact Or.inl (hsub2 _ hin)
          · exact Or.inr ht
        · exact hpairs2 d hd'
      · intro d hd
        rcases List.mem_cons.mp hd with rfl | hd'
        · exact hshape1
        · exact hshape2 d hd'

theorem resolveWithAll_ok_members {a : Int} {c1 : Clause} : ∀ (cwo : List Clause)
    (f : NormalForm) (fls : LitSet) (f1 : NormalForm),
    resolveWithAll a c1 cwo f fls = ResOut.ok f1 →
    ∀ c ∈ f1, c ∈ f ∨ ∃ c2 ∈ cwo, c = resolve c1 c2 a := by
  intro cwo
  induction cwo with
  | nil =>
    intro f fls f1 h
    simp only [resolveWithAll, ResOut.ok.injEq] at h
    subst h
    exact fun c hc => Or.inl hc
  | cons c2 rest ih =>
    intro f fls f1 h c hc
    by_cases hr0 : resolve c1 c2 a = []
    · have hstep0 : resolveWithAll a c1 (c2 :: rest) f fls = ResOut.emptyClause := by
        simp only [resolveWithAll]
        rw [if_pos hr0]
      rw [hstep0] at h
      cases h
    · by_cases hru : isUnitClause (resolve c1 c2 a) = true
      · rcases hrf : removeFalseLiterals f (insertLit (-((resolve c1 c2 a).headD 0)) fls)
          with ⟨fa, fb, fc⟩
        have hstepu : resolveWithAll a c1 (c2 :: rest) f fls = ResOut.unitClause fa fb fc := by
          simp only [resolveWithAll]
          rw [if_neg hr0, if_pos hru, hrf]
        rw [hstepu] at h
        cases h
      · by_cases hrt : isTautologicClause (resolve c1 c2 a) = true
        · have hrec : resolveWithAll a c1 rest f fls = ResOut.ok f1 := by
            have hstep : resolveWithAll a c1 (c2 :: rest) f fls
                = resolveWithAll a c1 rest f fls := by
              simp only [resolveWithAll]
              rw [if_neg hr0, if_neg hru, if_pos hrt]
            rw [← hstep]
            exact h
          rcases ih f fls f1 hrec c hc with hin | ⟨d, hd, he⟩
          · exact Or.inl hin
          · exact Or.inr ⟨d, List.mem_cons_of_mem _ hd, he⟩
        · have hrec : resolveWithAll a c1 rest (insertClause (resolve c1 c2 a) f) fls
              = ResOut.ok f1 := by
            have hstep : resolveWithAll a c1 (c2 :: rest) f fls
                = resolveWithAll a c1 rest (insertClause (resolve c1 c2 a) f) fls := by
              simp only [resolveWithAll]
              rw [if_neg hr0, if_neg hru, if_neg hrt]
            rw [← hstep]
            exact h
          rcases ih _ fls f1 hrec c hc with hin | ⟨d, hd, he⟩
          · rcases mem_insertClause.mp hin with rfl | hin'
            · exact Or.inr ⟨c2, List.mem_cons_self c2 rest, rfl⟩
            · exact Or.inl hin'
          · exact Or.inr ⟨d, List.mem_cons_of_mem _ hd, he⟩

theorem resolveAllPairs_ok_members {a : Int} : ∀ (cw cwo : List Clause) (f : NormalForm)
    (fls : LitSet) (f1 : NormalForm),
    resolveAllPairs a cw cwo f fls = ResOut.ok f1 →
    ∀ c ∈ f1, c ∈ f ∨ ∃ c1 ∈ cw, ∃ c2 ∈ cwo, c = resolve c1 c2 a := by
  intro cw
  induction cw with
  | nil =>
    intro cwo f fls f1 h
    simp only [resolveAllPairs, ResOut.ok.injEq] at h
    subst h
    exact fun c hc => Or.inl hc
  | cons c1 rest ih =>
    intro cwo f fls f1 h c hc
    rcases hw : resolveWithAll a c1 cwo f fls with _ | ⟨fa, fb, fc⟩ | fa
    · rw [resolveAllPairs, hw] at h
      cases h
    · rw [resolveAllPairs, hw] at h
      cases h
    · rw [resolveAllPairs, hw] at h
      rcases ih cwo fa fls f1 h c hc with hin | ⟨d1, hd1, d2, hd2, he⟩
      · rcases resolveWithAll_ok_members cwo f fls fa hw c hin with hin' | ⟨d2, hd2, he⟩
        · exact Or.inl hin'
        · exact Or.inr ⟨c1, List.mem_cons_self c1 rest, d2, hd2, he⟩
      · exact Or.inr ⟨d1, List.mem_cons_of_mem _ hd1, d2, hd2, he⟩

theorem resolveWithAll_ok_nodup {a : Int} {c1 : Clause} : ∀ (cwo : List Clause)
    (f : NormalForm) (fls : LitSet) (f1 : NormalForm),
    f.Nodup → resolveWithAll a c1 cwo f fls = ResOut.ok f1 → f1.Nodup := by
  intro cwo
  induction cwo with
  | nil =>
    intro f fls f1 hn h
    simp only [resolveWithAll, ResOut.ok.injEq] at h
    subst h
    exact hn
  | cons c2 rest ih =>
    intro f fls f1 hn h
    by_cases hr0 : resolve c1 c2 a = []
    · have hstep0 : resolveWithAll a c1 (c2 :: rest) f fls = ResOut.emptyClause := by
        simp only [resolveWithAll]
        rw [if_pos hr0]
      rw [hstep0] at h
      cases h
    · by_cases hru : isUnitClause (resolve c1 c2 a) = true
      · rcases hrf : removeFalseLiterals f (insertLit (-((resolve c1 c2 a).headD 0)) fls)
          with ⟨fa, fb, fc⟩
        have hstepu : resolveWithAll a c1 (c2 :: rest) f fls = ResOut.unitClause fa fb fc := by
          simp only [resolveWithAll]
          rw [if_neg hr0, if_pos hru, hrf]
        rw [hstepu] at h
        cases h
      · by_cases hrt : isTautologicClause (resolve c1 c2 a) = true
        · refine ih f fls f1 hn ?_
          have hstep : resolveWithAll a c1 (c2 :: rest) f fls
              = resolveWithAll a c1 rest f fls := by
            simp only [resolveWithAll]
            rw [if_neg hr0, if_neg hru, if_pos hrt]
          rw [← hstep]
          exact h
        · refine ih (insertClause (resolve c1 c2 a) f) fls f1 (nodup_insertClause hn) ?_
          have hstep : resolveWithAll a c1 (c2 :: rest) f fls
              = resolveWithAll a c1 rest (insertClause (resolve c1 c2 a) f) fls := by
            simp only [resolveWithAll]
            rw [if_neg hr0, if_neg hru, if_neg hrt]
          rw [← hstep]
          exact h

theorem resolveAllPairs_ok_nodup {a : Int} : ∀ (cw cwo : List Clause) (f : NormalForm)
    (fls : LitSet) (f1 : NormalForm),
    f.Nodup → resolveAllPairs a cw cwo f fls = ResOut.ok f1 → f1.Nodup := by
  intro cw
  induction cw with
  | nil =>
    intro cwo f fls f1 hn h
    simp only [resolveAllPairs, ResOut.ok.injEq] at h
    subst h
    exact hn
  | cons c1 rest ih =>
    intro cwo f fls f1 hn h
    rcases hw : resolveWithAll a c1 cwo f fls with _ | ⟨fa, fb, fc⟩ | fa
    · rw [resolveAllPairs, hw] at h
      cases h
    · rw [resolveAllPairs, hw] at h
      cases h
    · rw [resolveAllPairs, hw] at h
      exact ih cwo fa fls f1 (resolveWithAll_ok_nodup cwo f fls fa hn hw) h

theorem rflLoop_nil (done : NormalForm) (fls : LitSet) :
    rflLoop done [] fls = (done, fls, false) := by
  simp [rflLoop]

theorem rflLoop_conflict (done : NormalForm) (c : Clause) (rest : NormalForm) (fls : LitSet)
    (hany : (c.any fun l => decide (l ∈ fls)) = true)
    (hempty : (c.filter fun l => ! decide (l ∈ fls)) = []) :
    rflLoop done (c :: rest) fls = (done ++ c :: rest, fls, true) := by
  rw [rflLoop.eq_def]
  simp only []
  rw [dif_pos hany]
  simp only [hempty]
  simp

theorem rflLoop_unit (done : NormalForm) (c : Clause) (rest : NormalForm) (fls : LitSet)
    (hany : (c.any fun l => decide (l ∈ fls)) = true)
    (hempty : ¬ (c.filter fun l => ! decide (l ∈ fls)) = [])
    (hunit : isUnitClause (c.filter fun l => ! decide (l ∈ fls)) = true) :
    rflLoop done (c :: rest) fls
      = rflLoop [] (done ++ rest)
          (insertLit (-((c.filter fun l => ! decide (l ∈ fls)).headD 0)) fls) := by
  rw [rflLoop.eq_def]
  simp only []
  rw [dif_pos hany, if_neg hempty, if_pos hunit]

theorem rflLoop_dup (done : NormalForm) (c : Clause) (rest : NormalForm) (fls : LitSet)
    (hany : (c.any fun l => decide (l ∈ fls)) = true)
    (hempty : ¬ (c.filter fun l => ! decide (l ∈ fls)) = [])
    (hunit : ¬ isUnitClause (c.filter fun l => ! decide (l ∈ fls)) = true)
    (hdup : (c.filter fun l => ! decide (l ∈ fls)) ∈ done
            ∨ (c.filter fun l => ! decide (l ∈ fls)) ∈ rest) :
    rflLoop done (c :: rest) fls = rflLoop done rest fls := by
  rw [rflLoop.eq_def]
  simp only []
  rw [dif_pos hany, if_neg hempty, if_neg hunit, if_pos hdup]

theorem rflLoop_insL (done : NormalForm) (c : Clause) (rest : NormalForm) (fls : LitSet)
    (hany : (c.any fun l => decide (l ∈ fls)) = true)
    (hempty : ¬ (c.filter fun l => ! decide (l ∈ fls)) = [])
    (hunit : ¬ isUnitClause (c.filter fun l => ! decide (l ∈ fls)) = true)
    (hdup : ¬ ((c.filter fun l => ! decide (l ∈ fls)) ∈ done
            ∨ (c.filter fun l => ! decide (l ∈ fls)) ∈ rest))
    (hpos : rest = [] ∨ clauseLtb (c.filter fun l => ! decide (l ∈ fls)) (rest.headD []) = true) :
    rflLoop done (c :: rest) fls
      = rflLoop (insClauseAux (c.filter fun l => ! decide (l ∈ fls)) done) rest fls := by
  rw [rflLoop.eq_def]
  simp only []
  rw [dif_pos hany, if_neg hempty, if_neg hunit, if_neg hdup, if_pos hpos]

theorem rflLoop_insR (done : NormalForm) (c : Clause) (rest : NormalForm) (fls : LitSet)
    (hany : (c.any fun l => decide (l ∈ fls)) = true)
    (hempty : ¬ (c.filter fun l => ! decide (l ∈ fls)) = [])
    (hunit : ¬ isUnitClause (c.filter fun l => ! decide (l ∈ fls)) = true)
    (hdup : ¬ ((c.filter fun l => ! decide (l ∈ fls)) ∈ done
            ∨ (c.filter fun l => ! decide (l ∈ fls)) ∈ rest))
    (hpos : ¬ (rest = [] ∨ clauseLtb (c.filter fun l => ! decide (l ∈ fls)) (rest.headD []) = true)) :
    rflLoop done (c :: rest) fls
      = rflLoop done (insClauseAux (c.filter fun l => ! decide (l ∈ fls)) rest) fls := by
  rw [rflLoop.eq_def]
  simp only []
  rw [dif_pos hany, if_neg hempty, if_neg hunit, if_neg hdup, if_neg hpos]

theorem rflLoop_skip (done : NormalForm) (c : Clause) (rest : NormalForm) (fls : LitSet)
    (hany : ¬ (c.any fun l => decide (l ∈ fls)) = true) :
    rflLoop done (c :: rest) fls = rflLoop (done ++ [c]) rest fls := by
  rw [rflLoop.eq_def]
  simp only []
  rw [dif_neg hany]

theorem rflLoop_fls_mono : ∀ (done todo : NormalForm) (fls : LitSet),
    ∀ l ∈ fls, l ∈ (rflLoop done todo fls).2.1 := by
  intro done todo fls
  induction done, todo, fls using rflLoop.induct with
  | case1 done fls =>
    rw [rflLoop_nil]
    exact fun l hl => hl
  | case2 done fls c rest hany newC hempty =>
    rw [rflLoop_conflict done c rest fls hany hempty]
    exact fun l hl => hl
  | case3 done fls c rest hany newC hempty hunit ih =>
    rw [rflLoop_unit done c rest fls hany hempty hunit]
    exact fun l hl => ih l (mem_insertLit.mpr (Or.inr hl))
  | case4 done fls c rest hany newC hempty hunit hdup ih =>
    rw [rflLoop_dup done c rest fls hany hempty hunit hdup]
    exact ih
  | case5 done fls c rest hany newC hempty hunit hdup hpos ih =>
    rw [rflLoop_insL done c rest fls hany hempty hunit hdup hpos]
    exact ih
  | case6 done fls c rest hany newC hempty hunit hdup hpos ih =>
    rw [rflLoop_insR done c rest fls hany hempty hunit hdup hpos]
    exact ih
  | case7 done fls c rest hany ih =>
    rw [rflLoop_skip done c rest fls hany]
    exact ih

theorem rflLoop_literals : ∀ (done todo : NormalForm) (fls : LitSet),
    ∀ c ∈ (rflLoop done todo fls).1, ∀ l ∈ c, ∃ d, (d ∈ done ∨ d ∈ todo) ∧ l ∈ d := by
  intro done todo fls
  induction done, todo, fls using rflLoop.induct with
  | case1 done fls =>
    rw [rflLoop_nil]
    exact fun c hc l hl => ⟨c, Or.inl hc, hl⟩
  | case2 done fls c rest hany newC hempty =>
    rw [rflLoop_conflict done c rest fls hany hempty]
    intro d hd l hl
    rcases List.mem_append.mp hd with h1 | h2
    · exact ⟨d, Or.inl h1, hl⟩
    · exact ⟨d, Or.inr h2, hl⟩
  | case3 done fls c rest hany newC hempty hunit ih =>
    rw [rflLoop_unit done c rest fls hany hempty hunit]
    intro d hd l hl
    rcases ih d hd l hl with ⟨e, he, hle⟩
    rcases he with he1 | he2
    · exact absurd he1 (List.not_mem_nil e)
    · rcases List.mem_append.mp he2 with h1 | h2
      · exact ⟨e, Or.inl h1, hle⟩
      · exact ⟨e, Or.inr (List.mem_cons_of_mem _ h2), hle⟩
  | case4 done fls c rest hany newC hempty hunit hdup ih =>
    rw [rflLoop_dup done c rest fls hany hempty hunit hdup]
    intro d hd l hl
    rcases ih d hd l hl with ⟨e, he, hle⟩
    rcases he with h1 | h2
    · exact ⟨e, Or.inl h1, hle⟩
    · exact ⟨e, Or.inr (List.mem_cons_of_mem _ h2), hle⟩
  | case5 done fls c rest hany newC hempty hunit hdup hpos ih =>
    rw [rflLoop_insL done c rest fls hany hempty hunit hdup hpos]
    intro d hd l hl
    rcases ih d hd l hl with ⟨e, he, hle⟩
    rcases he with h1 | h2
    · rcases mem_insClauseAux.mp h1 with rfl | h1n
      · exact ⟨c, Or.inr (List.mem_cons_self c rest), List.mem_of_mem_filter hle⟩
      · exact ⟨e, Or.inl h1n, hle⟩
    · exact ⟨e, Or.inr (List.mem_cons_of_mem _ h2), hle⟩
  | case6 done fls c rest hany newC hempty hunit hdup hpos ih =>
    rw [rflLoop_insR done c rest fls hany hempty hunit hdup hpos]
    intro d hd l hl
    rcases ih d hd l hl with ⟨e, he, hle⟩
    rcases he with h1 | h2
    · exact ⟨e, Or.inl h1, hle⟩
    · rcases mem_insClauseAux.mp h2 with rfl | h2n
      · exact ⟨c, Or.inr (List.mem_cons_self c rest), List.mem_of_mem_filter hle⟩
      · exact ⟨e, Or.inr (List.mem_cons_of_mem _ h2n), hle⟩
  | case7 done fls c rest hany ih =>
    rw [rflLoop_skip done c rest fls hany]
    intro d hd l hl
    rcases ih d hd l hl with ⟨e, he, hle⟩
    rcases he with h1 | h2
    · rcases List.mem_append.mp h1 with h1a | h1b
      · exact ⟨e, Or.inl h1a, hle⟩
      · obtain rfl := List.mem_singleton.mp h1b
        exact ⟨e, Or.inr (List.mem_cons_self e rest), hle⟩
    · exact ⟨e, Or.inr (List.mem_cons_of_mem _ h2), hle⟩

theorem rflLoop_nodup : ∀ (done todo : NormalForm) (fls : LitSet),
    (done ++ todo).Nodup → (rflLoop done todo fls).1.Nodup := by
  intro done todo fls
  induction done, todo, fls using rflLoop.induct with
  | case1 done fls =>
    intro h
    rw [rflLoop_nil]
    simpa using h
  | case2 done fls c rest hany newC hempty =>
    intro h
    rw [rflLoop_conflict done c rest fls hany hempty]
    exact h
  | case3 done fls c rest hany newC hempty hunit ih =>
    intro h
    rw [rflLoop_unit done c rest fls hany hempty hunit]
    refine ih ?_
    simpa using h.sublist ((List.sublist_cons_self c rest).append_left done)
  | case4 done fls c rest hany newC hempty hunit hdup ih =>
    intro h
    rw [rflLoop_dup done c rest fls hany hempty hunit hdup]
    exact ih (h.sublist ((List.sublist_cons_self c rest).append_left done))
  | case5 done fls c rest hany newC hempty hunit hdup hpos ih =>
    intro h
    rw [rflLoop_insL done c rest fls hany hempty hunit hdup hpos]
    refine ih ?_
    have hbase : (done ++ rest).Nodup := h.sublist ((List.sublist_cons_self c rest).append_left done)
    have hperm : (insClauseAux newC done ++ rest).Perm (newC :: (done ++ rest)) :=
      (insClauseAux_perm newC done).append_right rest
    refine hperm.nodup_iff.mpr (List.nodup_cons.mpr ⟨?_, hbase⟩)
    intro hmem
    rcases List.mem_append.mp hmem with h1 | h2
    · exact hdup (Or.inl h1)
    · exact hdup (Or.inr h2)
  | case6 done fls c rest hany newC hempty hunit hdup hpos ih =>
    intro h
    rw [rflLoop_insR done c rest fls hany hempty hunit hdup hpos]
    refine ih ?_
    have hbase : (done ++ rest).Nodup := h.sublist ((List.sublist_cons_self c rest).append_left done)
    have hperm1 : (done ++ insClauseAux newC rest).Perm (done ++ newC :: rest) :=
      (insClauseAux_perm newC rest).append_left done
    have hperm2 : (done ++ newC :: rest).Perm (newC :: (done ++ rest)) := List.perm_middle
    refine (hperm1.trans hperm2).nodup_iff.mpr (List.nodup_cons.mpr ⟨?_, hbase⟩)
    intro hmem
    rcases List.mem_append.mp hmem with h1 | h2
    · exact hdup (Or.inl h1)
    · exact hdup (Or.inr h2)
  | case7 done fls c rest hany ih =>
    intro h
    rw [rflLoop_skip done c rest fls hany]
    refine ih ?_
    rwa [List.append_assoc]

theorem rflLoop_no_units : ∀ (done todo : NormalForm) (fls : LitSet),
    (∀ c ∈ done, c.length ≠ 1) → (∀ c ∈ todo, c.length ≠ 1) →
    ∀ c ∈ (rflLoop done todo fls).1, c.length ≠ 1 := by
  intro done todo fls
  induction done, todo, fls using rflLoop.induct with
  | case1 done fls =>
    intro h1 h2
    rw [rflLoop_nil]
    exact h1
  | case2 done fls c rest hany newC hempty =>
    intro h1 h2
    rw [rflLoop_conflict done c rest fls hany hempty]
    intro d hd
    rcases List.mem_append.mp hd with ha | hb
    · exact h1 d ha
    · exact h2 d hb
  | case3 done fls c rest hany newC hempty hunit ih =>
    intro h1 h2
    rw [rflLoop_unit done c rest fls hany hempty hunit]
    refine ih (by simp) ?_
    intro d hd
    rcases List.mem_append.mp hd with ha | hb
    · exact h1 d ha
    · exact h2 d (List.mem_cons_of_mem _ hb)
  | case4 done fls c rest hany newC hempty hunit hdup ih =>
    intro h1 h2
    rw [rflLoop_dup done c rest fls hany hempty hunit hdup]
    exact ih h1 (fun d hd => h2 d (List.mem_cons_of_mem _ hd))
  | case5 done fls c rest hany newC hempty hunit hdup hpos ih =>
    intro h1 h2
    rw [rflLoop_insL done c rest fls hany hempty hunit hdup hpos]
    refine ih ?_ (fun d hd => h2 d (List.mem_cons_of_mem _ hd))
    intro d hd
    rcases mem_insClauseAux.mp hd with rfl | hdn
    · simpa [isUnitClause] using hunit
    · exact h1 d hdn
  | case6 done fls c rest hany newC hempty hunit hdup hpos ih =>
    intro h1 h2
    rw [rflLoop_insR done c rest fls hany hempty hunit hdup hpos]
    refine ih h1 ?_
    intro d hd
    rcases mem_insClauseAux.mp hd with rfl | hdn
    · simpa [isUnitClause] using hunit
    · exact h2 d (List.mem_cons_of_mem _ hdn)
  | case7 done fls c rest hany ih =>
    intro h1 h2
    rw [rflLoop_skip done c rest fls hany]
    refine ih ?_ (fun d hd => h2 d (List.mem_cons_of_mem _ hd))
    intro d hd
    rcases List.mem_append.mp hd with ha | hb
    · exact h1 d ha
    · obtain rfl := List.mem_singleton.mp hb
      exact h2 d (List.mem_cons_self d rest)

theorem rflLoop_clean : ∀ (done todo : NormalForm) (fls : LitSet),
    (∀ c ∈ done, ∀ l ∈ c, l ∉ fls) →
    (rflLoop done todo fls).2.2 = false →
    ∀ c ∈ (rflLoop done todo fls).1, ∀ l ∈ c, l ∉ (rflLoop done todo fls).2.1 := by
  intro done todo fls
  induction done, todo, fls using rflLoop.induct with
  | case1 done fls =>
    intro h _
    rw [rflLoop_nil] at *
    exact h
  | case2 done fls c rest hany newC hempty =>
    intro h hflag
    rw [rflLoop_conflict done c rest fls hany hempty] at hflag
    simp at hflag
  | case3 done fls c rest hany newC hempty hunit ih =>
    intro h hflag
    rw [rflLoop_unit done c rest fls hany hempty hunit] at *
    exact ih (by simp) hflag
  | case4 done fls c rest hany newC hempty hunit hdup ih =>
    intro h hflag
    rw [rflLoop_dup done c rest fls hany hempty hunit hdup] at *
    exact ih h hflag
  | case5 done fls c rest hany newC hempty hunit hdup hpos ih =>
    intro h hflag
    rw [rflLoop_insL done c rest fls hany hempty hunit hdup hpos] at *
    refine ih ?_ hflag
    intro d hd
    rcases mem_insClauseAux.mp hd with rfl | hdn
    · intro l hl
      have := List.mem_filter.mp hl
      simpa using this.2
    · exact h d hdn
  | case6 done fls c rest hany newC hempty hunit hdup hpos ih =>
    intro h hflag
    rw [rflLoop_insR done c rest fls hany hempty hunit hdup hpos] at *
    exact ih h hflag
  | case7 done fls c rest hany ih =>
    intro h hflag
    rw [rflLoop_skip done c rest fls hany] at *
    refine ih ?_ hflag
    intro d hd
    rcases List.mem_append.mp hd with ha | hb
    · exact h d ha
    · obtain rfl := List.mem_singleton.mp hb
      intro l hl hlf
      simp only [List.any_eq_true, not_exists] at hany
      exact hany l ⟨hl, decide_eq_true hlf⟩

theorem rflLoop_clean_walk : ∀ (todo done : NormalForm) (fls : LitSet),
    (∀ c ∈ todo, ∀ l ∈ c, l ∉ fls) →
    rflLoop done todo fls = (done ++ todo, fls, false) := by
  intro todo
  induction todo with
  | nil =>
    intro done fls _
    rw [rflLoop_nil, List.append_nil]
  | cons c rest ih =>
    intro done fls h
    have hany : ¬ (c.any fun l => decide (l ∈ fls)) = true := by
      simp only [List.any_eq_true, not_exists]
      intro l
      intro hcontra
      rcases hcontra with ⟨hl, hdec⟩
      exact absurd (of_decide_eq_true hdec) (h c (List.mem_cons_self c rest) l hl)
    rw [rflLoop_skip done c rest fls hany,
      ih (done ++ [c]) fls (fun d hd => h d (List.mem_cons_of_mem _ hd))]
    simp [List.append_assoc]

theorem rucLoop_nil (done : NormalForm) (fls : LitSet) :
    rucLoop done [] fls
      = if fls ≠ [] then removeFalseLiterals done fls else (done, fls, false) := rfl

theorem rucLoop_conflict (done : NormalForm) (c : Clause) (rest : NormalForm) (fls : LitSet)
    (hu : isUnitClause c = true) (hin : c.headD 0 ∈ fls) :
    rucLoop done (c :: rest) fls = (done ++ c :: rest, fls, true) := by
  unfold rucLoop
  rw [if_pos hu, if_pos hin]

theorem rucLoop_propagate (done : NormalForm) (c : Clause) (rest : NormalForm) (fls : LitSet)
    (hu : isUnitClause c = true) (hin : c.headD 0 ∉ fls) :
    rucLoop done (c :: rest) fls = rucLoop done rest (insertLit (-(c.headD 0)) fls) := by
  conv_lhs => unfold rucLoop
  rw [if_pos hu, if_neg hin]

theorem rucLoop_skip (done : NormalForm) (c : Clause) (rest : NormalForm) (fls : LitSet)
    (hu : ¬ isUnitClause c = true) :
    rucLoop done (c :: rest) fls = rucLoop (done ++ [c]) rest fls := by
  conv_lhs => unfold rucLoop
  rw [if_neg hu]

theorem rucLoop_c5 : ∀ (todo done : NormalForm) (fls : LitSet),
    (∀ c ∈ done, c.length ≠ 1) →
    (rucLoop done todo fls).2.2 = false →
    (∀ c ∈ (rucLoop done todo fls).1, ∀ l ∈ c, l ∉ (rucLoop done todo fls).2.1)
    ∧ (∀ c ∈ (rucLoop done todo fls).1, c.length ≠ 1) := by
  intro todo
  induction todo with
  | nil =>
    intro done fls hdone hflag
    by_cases hfls : fls = []
    · subst hfls
      have heq : rucLoop done [] ([] : LitSet) = (done, [], false) := by
        rw [rucLoop_nil]
        simp
      rw [heq] at *
      exact ⟨fun c _ l _ => List.not_mem_nil l, hdone⟩
    · have heq : rucLoop done [] fls = rflLoop [] done fls := by
        rw [rucLoop_nil, if_pos hfls]
        rfl
      rw [heq] at hflag ⊢
      constructor
      · exact rflLoop_clean [] done fls (by simp) hflag
      · exact rflLoop_no_units [] done fls (by simp) hdone
  | cons c rest ih =>
    intro done fls hdone hflag
    by_cases hu : isUnitClause c = true
    · by_cases hin : c.headD 0 ∈ fls
      · rw [rucLoop_conflict done c rest fls hu hin] at hflag
        simp at hflag
      · rw [rucLoop_propagate done c rest fls hu hin] at *
        exact ih done _ hdone hflag
    · rw [rucLoop_skip done c rest fls hu] at *
      refine ih (done ++ [c]) fls ?_ hflag
      intro d hd
      rcases List.mem_append.mp hd with h1 | h2
      · exact hdone d h1
      · obtain rfl := List.mem_singleton.mp h2
        simpa [isUnitClause] using hu

theorem rucLoop_literals : ∀ (todo done : NormalForm) (fls : LitSet),
    ∀ c ∈ (rucLoop done todo fls).1, ∀ l ∈ c, ∃ d, (d ∈ done ∨ d ∈ todo) ∧ l ∈ d := by
  intro todo
  induction todo with
  | nil =>
    intro done fls c hc l hl
    by_cases hfls : fls = []
    · subst hfls
      rw [rucLoop_nil] at hc
      simp at hc
      exact ⟨c, Or.inl hc, hl⟩
    · rw [rucLoop_nil, if_pos hfls] at hc
      rcases rflLoop_literals [] done fls c hc l hl with ⟨d, hd, hld⟩
      rcases hd with h1 | h2
      · exact absurd h1 (List.not_mem_nil d)
      · exact ⟨d, Or.inl h2, hld⟩
  | cons c rest ih =>
    intro done fls d hd l hl
    by_cases hu : isUnitClause c = true
    · by_cases hin : c.headD 0 ∈ fls
      · rw [rucLoop_conflict done c rest fls hu hin] at hd
        rcases List.mem_append.mp hd with h1 | h2
        · exact ⟨d, Or.inl h1, hl⟩
        · exact ⟨d, Or.inr h2, hl⟩
      · rw [rucLoop_propagate done c rest fls hu hin] at hd
        rcases ih done _ d hd l hl with ⟨e, he, hle⟩
        rcases he with h1 | h2
        · exact ⟨e, Or.inl h1, hle⟩
        · exact ⟨e, Or.inr (List.mem_cons_of_mem _ h2), hle⟩
    · rw [rucLoop_skip done c rest fls hu] at hd
      rcases ih (done ++ [c]) fls d hd l hl with ⟨e, he, hle⟩
      rcases he with h1 | h2
      · rcases List.mem_append.mp h1 with h1a | h1b
        · exact ⟨e, Or.inl h1a, hle⟩
        · obtain rfl := List.mem_singleton.mp h1b
          exact ⟨e, Or.inr (List.mem_cons_self e rest), hle⟩
      · exact ⟨e, Or.inr (List.mem_cons_of_mem _ h2), hle⟩

theorem rucLoop_fls_mono : ∀ (todo done : NormalForm) (fls : LitSet),
    ∀ l ∈ fls, l ∈ (rucLoop done todo fls).2.1 := by
  intro todo
  induction todo with
  | nil =>
    intro done fls l hl
    by_cases hfls : fls = []
    · subst hfls
      simp at hl
    · rw [rucLoop_nil, if_pos hfls]
      exact rflLoop_fls_mono [] done fls l hl
  | cons c rest ih =>
    intro done fls l hl
    by_cases hu : isUnitClause c = true
    · by_cases hin : c.headD 0 ∈ fls
      · rw [rucLoop_conflict done c rest fls hu hin]
        exact hl
      · rw [rucLoop_propagate done c rest fls hu hin]
        exact ih done _ l (mem_insertLit.mpr (Or.inr hl))
    · rw [rucLoop_skip done c rest fls hu]
      exact ih (done ++ [c]) fls l hl

theorem rucLoop_nodup : ∀ (todo done : NormalForm) (fls : LitSet),
    (done ++ todo).Nodup → (rucLoop done todo fls).1.Nodup := by
  intro todo
  induction todo with
  | nil =>
    intro done fls h
    by_cases hfls : fls = []
    · subst hfls
      rw [rucLoop_nil]
      simpa using h
    · rw [rucLoop_nil, if_pos hfls]
      exact rflLoop_nodup [] done fls (by simpa using h)
  | cons c rest ih =>
    intro done fls h
    by_cases hu : isUnitClause c = true
    · by_cases hin : c.headD 0 ∈ fls
      · rw [rucLoop_conflict done c rest fls hu hin]
        exact h
      · rw [rucLoop_propagate done c rest fls hu hin]
        exact ih done _ (h.sublist ((List.sublist_cons_self c rest).append_left done))
    · rw [rucLoop_skip done c rest fls hu]
      refine ih (done ++ [c]) fls ?_
      rwa [List.append_assoc]

theorem rucLoop_no_unit_walk : ∀ (todo done : NormalForm) (fls : LitSet),
    (∀ c ∈ todo, ¬ isUnitClause c = true) →
    rucLoop done todo fls
      = if fls ≠ [] then removeFalseLiterals (done ++ todo) fls
        else (done ++ todo, fls, false) := by
  intro todo
  induction todo with
  | nil =>
    intro done fls _
    rw [rucLoop_nil, List.append_nil]
  | cons c rest ih =>
    intro done fls h
    rw [rucLoop_skip done c rest fls (h c (List.mem_cons_self c rest)),
      ih (done ++ [c]) fls (fun d hd => h d (List.mem_cons_of_mem _ hd))]
    simp [List.append_assoc]

theorem parseClause_closed : ∀ (toks : List Int) (c : Clause) (lits : LitSet),
    (∀ x ∈ c, x ∈ lits) →
    (∀ x ∈ (parseClause toks c lits).1, x ∈ (parseClause toks c lits).2.1)
    ∧ (∀ x ∈ lits, x ∈ (parseClause toks c lits).2.1) := by
  intro toks
  induction toks with
  | nil =>
    intro c lits h
    exact ⟨h, fun x hx => hx⟩
  | cons l rest ih =>
    intro c lits h
    by_cases hl : l = 0
    · subst hl
      have heq : parseClause (0 :: rest) c lits = (c, lits, rest) := by
        simp [parseClause]
      rw [heq]
      exact ⟨h, fun x hx => hx⟩
    · have heq : parseClause (l :: rest) c lits
          = parseClause rest (insertLit l c) (insertLit l lits) := by
        simp [parseClause, hl]
      rw [heq]
      have hrec := ih (insertLit l c) (insertLit l lits) (fun x hx => by
        rcases mem_insertLit.mp hx with rfl | hxn
        · exact mem_insertLit.mpr (Or.inl rfl)
        · exact mem_insertLit.mpr (Or.inr (h x hxn)))
      exact ⟨hrec.1, fun x hx => hrec.2 x (mem_insertLit.mpr (Or.inr hx))⟩

theorem parseLoop_closed : ∀ (count : Nat) (toks : List Int) (f : NormalForm) (lits : LitSet),
    LitsClosed f lits →
    LitsClosed (parseLoop count toks f lits).1 (parseLoop count toks f lits).2 := by
  intro count
  induction count with
  | zero =>
    intro toks f lits h
    exact h
  | succ n ih =>
    intro toks f lits h
    rcases hp : parseClause toks [] lits with ⟨c, lits1, restToks⟩
    have heq : parseLoop (n + 1) toks f lits = parseLoop n restToks (insertClause c f) lits1 := by
      simp [parseLoop, hp]
    rw [heq]
    apply ih
    intro d hd l hl
    rcases mem_insertClause.mp hd with rfl | hdn
    · have hcl := (parseClause_closed toks [] lits (by simp)).1
      simp only [hp] at hcl
      exact hcl l hl
    · have hmono := (parseClause_closed toks [] lits (by simp)).2
      simp only [hp] at hmono
      exact hmono l (h d hdn l hl)

theorem length_filter_le_filter {p q : Int → Bool} : ∀ {l : List Int},
    (∀ x ∈ l, p x = true → q x = true) →
    (l.filter p).length ≤ (l.filter q).length := by
  intro l
  induction l with
  | nil => intro _; simp
  | cons y t ih =>
    intro h
    have ht := ih (fun x hx => h x (List.mem_cons_of_mem _ hx))
    by_cases hp : p y = true
    · rw [List.filter_cons, if_pos hp, List.filter_cons,
        if_pos (h y (List.mem_cons_self y t) hp)]
      simpa using ht
    · rw [List.filter_cons, if_neg hp]
      by_cases hq : q y = true
      · rw [List.filter_cons, if_pos hq]
        simp only [List.length_cons]
        omega
      · rw [List.filter_cons, if_neg hq]
        exact ht

theorem length_filter_lt_filter {p q : Int → Bool} {l : List Int} {x0 : Int}
    (h : ∀ x ∈ l, p x = true → q x = true)
    (hx0 : x0 ∈ l) (hq : q x0 = true) (hp : p x0 = false) :
    (l.filter p).length < (l.filter q).length := by
  induction l with
  | nil => simp at hx0
  | cons y t ih =>
    have ht := length_filter_le_filter (fun x hx => h x (List.mem_cons_of_mem _ hx))
    rcases List.mem_cons.mp hx0 with rfl | hx0t
    · rw [List.filter_cons, List.filter_cons, if_neg (by simp [hp]), if_pos hq]
      simp only [List.length_cons]
      omega
    · have hlt := ih (fun x hx => h x (List.mem_cons_of_mem _ hx)) hx0t
      by_cases hpy : p y = true
      · rw [List.filter_cons, if_pos hpy, List.filter_cons,
          if_pos (h y (List.mem_cons_self y t) hpy)]
        simpa using hlt
      · rw [List.filter_cons, if_neg hpy]
        by_cases hqy : q y = true
        · rw [List.filter_cons, if_pos hqy]
          simp only [List.length_cons]
          omega
        · rw [List.filter_cons, if_neg hqy]
          exact hlt

theorem solveMeasure_lt_of_length_lt {lits1 lits2 fls1 fls2 : LitSet}
    (h : lits1.length < lits2.length) :
    solveMeasure lits1 fls1 < solveMeasure lits2 fls2 := by
  unfold solveMeasure
  have h1 : (lits1.filter fun l => ! decide ((-l) ∈ fls1)).length ≤ lits1.length :=
    List.length_filter_le _ _
  have h2 : lits1.length * (lits1.length + 1) + lits1.length + 1
      ≤ lits2.length * (lits2.length + 1) := by
    have h3 : lits1.length + 1 ≤ lits2.length := h
    calc lits1.length * (lits1.length + 1) + lits1.length + 1
        = (lits1.length + 1) * (lits1.length + 1) := by ring
      _ ≤ lits2.length * lits2.length := Nat.mul_le_mul h3 h3
      _ ≤ lits2.length * (lits2.length + 1) := Nat.mul_le_mul_left _ (by omega)
  omega

theorem solveMeasure_lt_of_fls_grow {lits fls1 fls2 : LitSet} {m : Int}
    (hsub : ∀ l ∈ fls1, l ∈ fls2)
    (hm : m ∈ lits) (hnot : -m ∉ fls1) (hyes : -m ∈ fls2) :
    solveMeasure lits fls2 < solveMeasure lits fls1 := by
  unfold solveMeasure
  have hlt : (lits.filter fun l => ! decide ((-l) ∈ fls2)).length
      < (lits.filter fun l => ! decide ((-l) ∈ fls1)).length := by
    refine length_filter_lt_filter ?_ hm ?_ ?_
    · intro x _ hx
      simp only [Bool.not_eq_true', decide_eq_false_iff_not] at hx ⊢
      intro hmem
      exact hx (hsub _ hmem)
    · simp [hnot]
    · simp [hyes]
  omega

theorem mem_eliminateLits {s : LitSet} {a x : Int} (hx : x ∈ s) (h1 : x ≠ a) (h2 : x ≠ -a) :
    x ∈ eliminateLits s a := by
  unfold eliminateLits
  rw [List.mem_erase_of_ne h2, List.mem_erase_of_ne h1]
  exact hx

theorem mem_of_mem_eliminateLits {s : LitSet} {a x : Int} :
    x ∈ eliminateLits s a → x ∈ s :=
  fun h => List.mem_of_mem_erase (List.mem_of_mem_erase h)

theorem eliminateLits_nodup {s : LitSet} {a : Int} (h : s.Nodup) :
    (eliminateLits s a).Nodup :=
  (h.erase a).erase (-a)

theorem eliminateLits_length_lt {s : LitSet} {a : Int} (h : a ∈ s ∨ -a ∈ s) :
    (eliminateLits s a).length < s.length := by
  unfold eliminateLits
  by_cases ha : a ∈ s
  · have h1 : (s.erase a).length = s.length - 1 := List.length_erase_of_mem ha
    have h2 : ((s.erase a).erase (-a)).length ≤ (s.erase a).length :=
      (List.erase_sublist _ _).length_le
    have h3 : 0 < s.length := List.length_pos.mpr (by rintro rfl; simp at ha)
    omega
  · have hna : -a ∈ s := by tauto
    rw [List.erase_of_not_mem ha]
    have h1 : (s.erase (-a)).length = s.length - 1 := List.length_erase_of_mem hna
    have h3 : 0 < s.length := List.length_pos.mpr (by rintro rfl; simp at hna)
    omega

theorem foldl_insertLit_mem : ∀ (c : List Int) (s : List Int) (x : Int),
    x ∈ c.foldl (fun s l => insertLit (iabs l) s) s → x ∈ s ∨ ∃ l ∈ c, iabs l = x := by
  intro c
  induction c with
  | nil =>
    intro s x h
    exact Or.inl h
  | cons l t ih =>
    intro s x h
    rcases ih _ x h with h1 | ⟨l2, hl2, he⟩
    · rcases mem_insertLit.mp h1 with rfl | h2
      · exact Or.inr ⟨l, List.mem_cons_self l t, rfl⟩
      · exact Or.inl h2
    · exact Or.inr ⟨l2, List.mem_cons_of_mem _ hl2, he⟩

theorem foldl_insertLit_nodup : ∀ (c : List Int) (s : List Int),
    s.Nodup → (c.foldl (fun s l => insertLit (iabs l) s) s).Nodup := by
  intro c
  induction c with
  | nil => exact fun s h => h
  | cons l t ih => exact fun s h => ih _ (nodup_insertLit h)

theorem atomsOf_mem : ∀ (f : NormalForm) (x : Int),
    x ∈ atomsOf f → ∃ c ∈ f, ∃ l ∈ c, iabs l = x := by
  have haux : ∀ (f : NormalForm) (s : List Int) (x : Int),
      x ∈ f.foldl (fun s c => c.foldl (fun s l => insertLit (iabs l) s) s) s →
      x ∈ s ∨ ∃ c ∈ f, ∃ l ∈ c, iabs l = x := by
    intro f
    induction f with
    | nil =>
      intro s x h
      exact Or.inl h
    | cons c t ih =>
      intro s x h
      rcases ih _ x h with h1 | ⟨c2, hc2, l, hl, he⟩
      · rcases foldl_insertLit_mem c s x h1 with h2 | ⟨l, hl, he⟩
        · exact Or.inl h2
        · exact Or.inr ⟨c, List.mem_cons_self c t, l, hl, he⟩
      · exact Or.inr ⟨c2, List.mem_cons_of_mem _ hc2, l, hl, he⟩
  intro f x h
  rcases haux f [] x h with h1 | h2
  · simp at h1
  · exact h2

theorem atomsOf_nodup (f : NormalForm) : (atomsOf f).Nodup := by
  have haux : ∀ (f : NormalForm) (s : List Int),
      s.Nodup → (f.foldl (fun s c => c.foldl (fun s l => insertLit (iabs l) s) s) s).Nodup := by
    intro f
    induction f with
    | nil => exact fun s h => h
    | cons c t ih => exact fun s h => ih _ (foldl_insertLit_nodup c s h)
  exact haux f [] List.nodup_nil

theorem atomOrder_nodup (f : NormalForm) : (atomOrder f).Nodup := by
  rw [atomOrder]
  exact (List.nodup_reverse).mpr (atomsOf_nodup f)

theorem atomOrder_spec {f : NormalForm} {lits : LitSet} (hclosed : LitsClosed f lits)
    (hzero : ZeroFree f) :
    ∀ a ∈ atomOrder f, 0 < a ∧ (a ∈ lits ∨ -a ∈ lits) := by
  intro a ha
  rw [atomOrder, List.mem_reverse] at ha
  rcases atomsOf_mem f a ha with ⟨c, hc, l, hl, he⟩
  have hlz : l ≠ 0 := fun h0 => hzero c hc (h0 ▸ hl)
  have hlit : l ∈ lits := hclosed c hc l hl
  subst he
  unfold iabs
  by_cases hneg : l < 0
  · rw [if_pos hneg]
    refine ⟨by omega, Or.inr ?_⟩
    simpa using hlit
  · rw [if_neg hneg]
    exact ⟨by omega, Or.inl hlit⟩

theorem removePureClauses_nodup {lits : LitSet} : ∀ {f : NormalForm},
    f.Nodup → (removePureClauses lits f).Nodup := by
  induction lits with
  | nil => exact fun h => h
  | cons l ls ih =>
    intro f h
    rw [removePureClauses_cons]
    by_cases hp : isPureLiteral l f = true
    · rw [if_pos hp]
      exact ih (h.filter _)
    · rw [if_neg hp]
      exact ih h

theorem resolveAllPairs_ok_litsub {a : Int} {f : NormalForm} {fls : LitSet} {f1 : NormalForm}
    (hok : resolveAllPairs a (allClausesWithGivenLiteral f a)
        (allClausesWithGivenLiteral f (-a)) f fls = ResOut.ok f1) :
    ∀ c ∈ f1, ∀ l ∈ c, ∃ d ∈ f, l ∈ d := by
  intro c hc l hl
  rcases resolveAllPairs_ok_members _ _ f fls f1 hok c hc with hcf | ⟨c1, hc1, c2, hc2, rfl⟩
  · exact ⟨c, hcf, hl⟩
  · rcases resolve_subset hl with h1 | h2
    · exact ⟨c1, (List.mem_filter.mp hc1).1, h1⟩
    · exact ⟨c2, (List.mem_filter.mp hc2).1, h2⟩

theorem eq_headD_of_unit {c : Clause} (h : isUnitClause c = true) : c = [c.headD 0] := by
  cases c with
  | nil => simp [isUnitClause] at h
  | cons x t =>
    cases t with
    | nil => rfl
    | cons y t2 => simp [isUnitClause] at h

theorem resolveWithAll_unit_spec {a : Int} {c1 : Clause} : ∀ (cwo : List Clause)
    (f : NormalForm) (fls : LitSet) (f2 : NormalForm) (fls2 : LitSet) (confl : Bool),
    resolveWithAll a c1 cwo f fls = ResOut.unitClause f2 fls2 confl →
    ∃ (fmid : NormalForm) (m : Int),
      (∀ c ∈ fmid, c ∈ f ∨ ∃ c2 ∈ cwo, c = resolve c1 c2 a)
      ∧ (f.Nodup → fmid.Nodup)
      ∧ (∃ c2 ∈ cwo, resolve c1 c2 a = [m])
      ∧ removeFalseLiterals fmid (insertLit (-m) fls) = (f2, fls2, confl) := by
  intro cwo
  induction cwo with
  | nil =>
    intro f fls f2 fls2 confl h
    simp only [resolveWithAll] at h
    cases h
  | cons c2 rest ih =>
    intro f fls f2 fls2 confl h
    by_cases hr0 : resolve c1 c2 a = []
    · have hstep0 : resolveWithAll a c1 (c2 :: rest) f fls = ResOut.emptyClause := by
        simp only [resolveWithAll]
        rw [if_pos hr0]
      rw [hstep0] at h
      cases h
    · by_cases hru : isUnitClause (resolve c1 c2 a) = true
      · rcases hrf : removeFalseLiterals f (insertLit (-((resolve c1 c2 a).headD 0)) fls)
          with ⟨fa, fb, fc⟩
        have hstepu : resolveWithAll a c1 (c2 :: rest) f fls = ResOut.unitClause fa fb fc := by
          simp only [resolveWithAll]
          rw [if_neg hr0, if_pos hru, hrf]
        rw [hstepu] at h
        injection h with h1 h2 h3
        subst h1
        subst h2
        subst h3
        refine ⟨f, (resolve c1 c2 a).headD 0, fun c hc => Or.inl hc, fun hn => hn,
          ⟨c2, List.mem_cons_self c2 rest, eq_headD_of_unit hru⟩, hrf⟩
      · by_cases hrt : isTautologicClause (resolve c1 c2 a) = true
        · have hstep : resolveWithAll a c1 (c2 :: rest) f fls
              = resolveWithAll a c1 rest f fls := by
            simp only [resolveWithAll]
            rw [if_neg hr0, if_neg hru, if_pos hrt]
          rw [hstep] at h
          rcases ih f fls f2 fls2 confl h with ⟨fmid, m, hmem, hnd, ⟨d2, hd2, he⟩, hrfl⟩
          exact ⟨fmid, m,
            fun c hc => (hmem c hc).imp id (fun ⟨d, hd, hde⟩ => ⟨d, List.mem_cons_of_mem _ hd, hde⟩),
            hnd, ⟨d2, List.mem_cons_of_mem _ hd2, he⟩, hrfl⟩
        · have hstep : resolveWithAll a c1 (c2 :: rest) f fls
              = resolveWithAll a c1 rest (insertClause (resolve c1 c2 a) f) fls := by
            simp only [resolveWithAll]
            rw [if_neg hr0, if_neg hru, if_neg hrt]
          rw [hstep] at h
          rcases ih (insertClause (resolve c1 c2 a) f) fls f2 fls2 confl h
            with ⟨fmid, m, hmem, hnd, ⟨d2, hd2, he⟩, hrfl⟩
          refine ⟨fmid, m, ?_, fun hn => hnd (nodup_insertClause hn),
            ⟨d2, List.mem_cons_of_mem _ hd2, he⟩, hrfl⟩
          intro c hc
          rcases hmem c hc with hcf | ⟨d, hd, hde⟩
          · rcases mem_insertClause.mp hcf with rfl | hcf2
            · exact Or.inr ⟨c2, List.mem_cons_self c2 rest, rfl⟩
            · exact Or.inl hcf2
          · exact Or.inr ⟨d, List.mem_cons_of_mem _ hd, hde⟩

theorem resolveAllPairs_unit_spec {a : Int} : ∀ (cw cwo : List Clause)
    (f : NormalForm) (fls : LitSet) (f2 : NormalForm) (fls2 : LitSet) (confl : Bool),
    resolveAllPairs a cw cwo f fls = ResOut.unitClause f2 fls2 confl →
    ∃ (fmid : NormalForm) (m : Int),
      (∀ c ∈ fmid, c ∈ f ∨ ∃ c1 ∈ cw, ∃ c2 ∈ cwo, c = resolve c1 c2 a)
      ∧ (f.Nodup → fmid.Nodup)
      ∧ (∃ c1 ∈ cw, ∃ c2 ∈ cwo, resolve c1 c2 a = [m])
      ∧ removeFalseLiterals fmid (insertLit (-m) fls) = (f2, fls2, confl) := by
  intro cw
  induction cw with
  | nil =>
    intro cwo f fls f2 fls2 confl h
    simp only [resolveAllPairs] at h
    cases h
  | cons c1 rest ih =>
    intro cwo f fls f2 fls2 confl h
    rcases hw : resolveWithAll a c1 cwo f fls with _ | ⟨fa, fb, fc⟩ | fa
    · rw [resolveAllPairs, hw] at h
      cases h
    · rw [resolveAllPairs, hw] at h
      injection h with h1 h2 h3
      subst h1
      subst h2
      subst h3
      rcases resolveWithAll_unit_spec cwo f fls fa fb fc hw
        with ⟨fmid, m, hmem, hnd, ⟨d2, hd2, he⟩, hrfl⟩
      exact ⟨fmid, m,
        fun c hc => (hmem c hc).imp id
          (fun ⟨d, hd, hde⟩ => ⟨c1, List.mem_cons_self c1 rest, d, hd, hde⟩),
        hnd, ⟨c1, List.mem_cons_self c1 rest, d2, hd2, he⟩, hrfl⟩
    · rw [resolveAllPairs, hw] at h
      rcases ih cwo fa fls f2 fls2 confl h with ⟨fmid, m, hmem, hnd, ⟨d1, hd1, d2, hd2, he⟩, hrfl⟩
      refine ⟨fmid, m, ?_, fun hn => hnd (resolveWithAll_ok_nodup cwo f fls fa hn hw),
        ⟨d1, List.mem_cons_of_mem _ hd1, d2, hd2, he⟩, hrfl⟩
      intro c hc
      rcases hmem c hc with hcf | ⟨e1, he1, e2, he2, hde⟩
      · rcases resolveWithAll_ok_members cwo f fls fa hw c hcf with hcf2 | ⟨e2, he2, hde⟩
        · exact Or.inl hcf2
        · exact Or.inr ⟨c1, List.mem_cons_self c1 rest, e2, he2, hde⟩
      · exact Or.inr ⟨e1, List.mem_cons_of_mem _ he1, e2, he2, hde⟩

theorem solveRec_succ (g : Bool) (fuel : Nat) (f : NormalForm) (lits fls : LitSet) :
    solveRec g (fuel + 1) f lits fls
      = (if removePureClauses lits f = [] then some true
         else if removePureClauses lits f = [[]] then some false
         else atomLoop g fuel (atomOrder (removePureClauses lits f)) false
             (removePureClauses lits f) lits fls) := by
  rw [solveRec.eq_def]

theorem atomLoop_nil (g : Bool) (fuel : Nat) (found : Bool) (f : NormalForm)
    (lits fls : LitSet) :
    atomLoop g fuel [] found f lits fls
      = if !found then some true else solve g fuel f lits fls := by
  rw [atomLoop.eq_def]

theorem atomLoop_skip (g : Bool) (fuel : Nat) (a : Int) (rest : List Int) (found : Bool)
    (f : NormalForm) (lits fls : LitSet)
    (h : allClausesWithGivenLiteral f a = [] ∨ allClausesWithGivenLiteral f (-a) = []) :
    atomLoop g fuel (a :: rest) found f lits fls = atomLoop g fuel rest found f lits fls := by
  rw [atomLoop.eq_def]
  simp only []
  rw [if_pos h]

theorem atomLoop_res (g : Bool) (fuel : Nat) (a : Int) (rest : List Int) (found : Bool)
    (f : NormalForm) (lits fls : LitSet)
    (h : ¬ (allClausesWithGivenLiteral f a = [] ∨ allClausesWithGivenLiteral f (-a) = [])) :
    atomLoop g fuel (a :: rest) found f lits fls
      = match resolveAllPairs a (allClausesWithGivenLiteral f a)
            (allClausesWithGivenLiteral f (-a)) f fls with
        | ResOut.emptyClause => some false
        | ResOut.unitClause f1 fls1 confl =>
          if confl || g then some false else solveRec g fuel f1 lits fls1
        | ResOut.ok f1 =>
          atomLoop g fuel rest true
            (eraseClauses (allClausesWithGivenLiteral f (-a))
              (eraseClauses (allClausesWithGivenLiteral f a) f1))
            (eliminateLits lits a) (eliminateLits fls a) := by
  rw [atomLoop.eq_def]
  simp only []
  rw [if_neg h]

theorem solve_succ (g : Bool) (fuel : Nat) (f : NormalForm) (lits fls : LitSet) :
    solve g (fuel + 1) f lits fls
      = match removeUnitClauses (removeAllTautologyClauses f) fls with
        | (f2, fls2, detected) =>
          if detected || g then some false else solveRec g fuel f2 lits fls2 := by
  rw [solve.eq_def]

theorem elimination_closed {a : Int} {f : NormalForm} {fls lits : LitSet} {f1 : NormalForm}
    (hclosed : LitsClosed f lits) (hnodup : f.Nodup)
    (hok : resolveAllPairs a (allClausesWithGivenLiteral f a)
        (allClausesWithGivenLiteral f (-a)) f fls = ResOut.ok f1) :
    LitsClosed
      (eraseClauses (allClausesWithGivenLiteral f (-a))
        (eraseClauses (allClausesWithGivenLiteral f a) f1))
      (eliminateLits lits a) := by
  intro c hc l hl
  have hf1nodup : f1.Nodup := resolveAllPairs_ok_nodup _ _ f fls f1 hnodup hok
  have hnd2 : (eraseClauses (allClausesWithGivenLiteral f a) f1).Nodup :=
    nodup_eraseClauses hf1nodup
  rcases (mem_eraseClauses_iff hnd2).mp hc with ⟨hc1, hnotneg⟩
  rcases (mem_eraseClauses_iff hf1nodup).mp hc1 with ⟨hcf1, hnotpos⟩
  have hmem := resolveAllPairs_ok_members _ _ f fls f1 hok c hcf1
  have hna : a ∉ c ∧ -a ∉ c := by
    rcases hmem with hcf | ⟨c1, hc1w, c2, hc2w, rfl⟩
    · constructor
      · intro ha
        exact hnotpos (List.mem_filter.mpr ⟨hcf, by simp [ha]⟩)
      · intro ha
        exact hnotneg (List.mem_filter.mpr ⟨hcf, by simp [ha]⟩)
    · constructor
      · intro ha
        exact (resolve_not_target ha).1 rfl
      · intro ha
        exact (resolve_not_target ha).2 rfl
  have hl_lits : l ∈ lits := by
    rcases hmem with hcf | ⟨c1, hc1w, c2, hc2w, rfl⟩
    · exact hclosed c hcf l hl
    · rcases resolve_subset hl with h1 | h2
      · exact hclosed c1 (List.mem_filter.mp hc1w).1 l h1
      · exact hclosed c2 (List.mem_filter.mp hc2w).1 l h2
  exact mem_eliminateLits hl_lits (fun he => hna.1 (he ▸ hl)) (fun he => hna.2 (he ▸ hl))

/-- C5: when `removeUnitClauses` returns without signaling a conflict, no
clause of the resulting formula contains a literal of the accumulated
false-literal set and no unit clause remains: unit propagation was driven
to a fixpoint. -/
theorem claim5_unit_propagation_fixpoint (f f1 : NormalForm) (fls fls1 : LitSet)
    (h : removeUnitClauses f fls = (f1, fls1, false)) :
    (∀ c ∈ f1, ∀ l ∈ c, l ∉ fls1) ∧ (∀ c ∈ f1, c.length ≠ 1) := by
  unfold removeUnitClauses at h
  have hflag : (rucLoop [] f fls).2.2 = false := by rw [h]
  rcases rucLoop_c5 f [] fls (by simp) hflag with ⟨hclean, hunits⟩
  simp only [h] at hclean hunits
  exact ⟨hclean, hunits⟩

theorem claim5_witness :
    (∀ c ∈ ([[1, 2]] : NormalForm), ∀ l ∈ c, l ∉ ([-3, -1] : LitSet))
    ∧ (∀ c ∈ ([[1, 2]] : NormalForm), c.length ≠ 1) :=
  claim5_unit_propagation_fixpoint [[1], [1, 2], [-1, 3]] [[1, 2]] [] [-3, -1]
    (by simp [removeUnitClauses, rucLoop, isUnitClause, insertLit, insLitAux,
      removeFalseLiterals, rflLoop, insClauseAux, clauseLtb])

/-- C9: removing tautological clauses twice gives the same formula as
removing them once, and a second conflict-free run of `removeUnitClauses`
directly after a first changes neither the formula nor the false-literal
set (and again reports no conflict). -/
theorem claim9_idempotence :
    (∀ f : NormalForm, removeAllTautologyClauses (removeAllTautologyClauses f)
        = removeAllTautologyClauses f)
    ∧ (∀ (f f1 : NormalForm) (fls fls1 : LitSet),
        removeUnitClauses f fls = (f1, fls1, false) →
        removeUnitClauses f1 fls1 = (f1, fls1, false)) := by
  constructor
  · intro f
    simp [removeAllTautologyClauses, List.filter_filter]
  · intro f f1 fls fls1 h
    unfold removeUnitClauses at h
    have hflag : (rucLoop [] f fls).2.2 = false := by rw [h]
    rcases rucLoop_c5 f [] fls (by simp) hflag with ⟨hclean, hunits⟩
    simp only [h] at hclean hunits
    unfold removeUnitClauses
    rw [rucLoop_no_unit_walk f1 [] fls1
      (fun c hc => by simpa [isUnitClause] using hunits c hc)]
    by_cases hfls : fls1 = []
    · subst hfls
      simp
    · rw [if_pos hfls]
      show rflLoop [] ([] ++ f1) fls1 = (f1, fls1, false)
      rw [List.nil_append, rflLoop_clean_walk f1 [] fls1 hclean]
      simp

theorem claim9_witness :
    removeAllTautologyClauses (removeAllTautologyClauses [[-1, 1], [2]])
        = removeAllTautologyClauses [[-1, 1], [2]]
    ∧ removeUnitClauses [[1, 2]] [-3, -1] = ([[1, 2]], [-3, -1], false) :=
  ⟨claim9_idempotence.1 [[-1, 1], [2]],
   claim9_idempotence.2 [[1], [1, 2], [-1, 3]] [[1, 2]] [] [-3, -1]
     (by simp [removeUnitClauses, rucLoop, isUnitClause, insertLit, insLitAux,
       removeFalseLiterals, rflLoop, insClauseAux, clauseLtb])⟩

/-- C10: every literal of the formula lies in the literal universe: the
inclusion holds for the formula and literal set built by `parse`, and it is
preserved by tautology removal, by unit propagation, by pure-literal
elimination, and by a completed resolution elimination step, which erases
the atom's two literals from the universe only after every clause
containing either of them has been erased and only inserts resolvents
built from literals of existing clauses. -/
theorem claim10_universe_closure :
    (∀ (count : Nat) (toks : List Int) (f0 : NormalForm) (lits0 : LitSet),
        parse count toks = (f0, lits0) → LitsClosed f0 lits0)
    ∧ (∀ (f : NormalForm) (lits : LitSet), LitsClosed f lits →
        LitsClosed (removeAllTautologyClauses f) lits)
    ∧ (∀ (f f1 : NormalForm) (fls lits fls1 : LitSet) (b : Bool),
        LitsClosed f lits → removeUnitClauses f fls = (f1, fls1, b) → LitsClosed f1 lits)
    ∧ (∀ (ls lits : LitSet) (f : NormalForm), LitsClosed f lits →
        LitsClosed (removePureClauses ls f) lits)
    ∧ (∀ (a : Int) (f : NormalForm) (fls lits : LitSet) (f1 : NormalForm),
        LitsClosed f lits → f.Nodup →
        resolveAllPairs a (allClausesWithGivenLiteral f a)
            (allClausesWithGivenLiteral f (-a)) f fls = ResOut.ok f1 →
        LitsClosed
          (eraseClauses (allClausesWithGivenLiteral f (-a))
            (eraseClauses (allClausesWithGivenLiteral f a) f1))
          (eliminateLits lits a)) := by
  refine ⟨?_, ?_, ?_, ?_, ?_⟩
  · intro count toks f0 lits0 h
    have hp := parseLoop_closed count toks [] [] (by intro c hc; simp at hc)
    unfold parse at h
    simp only [h] at hp
    exact hp
  · intro f lits h c hc l hl
    exact h c (List.mem_filter.mp hc).1 l hl
  · intro f f1 fls lits fls1 b h hru c hc l hl
    unfold removeUnitClauses at hru
    have hlit := rucLoop_literals f [] fls c (by rw [hru]; exact hc) l hl
    rcases hlit with ⟨d, hd, hld⟩
    rcases hd with h1 | h2
    · exact absurd h1 (List.not_mem_nil d)
    · exact h d h2 l hld
  · intro ls lits f h c hc l hl
    exact h c (removePureClauses_subset hc) l hl
  · intro a f fls lits f1 hclosed hnodup hok
    exact elimination_closed hclosed hnodup hok

theorem claim10_witness :
    LitsClosed
      (eraseClauses (allClausesWithGivenLiteral [[1, 2], [-1, 3]] (-1))
        (eraseClauses (allClausesWithGivenLiteral [[1, 2], [-1, 3]] 1)
          [[1, 2], [-1, 3], [2, 3]]))
      (eliminateLits [-1, 1, 2, 3] 1) :=
  claim10_universe_closure.2.2.2.2 1 [[1, 2], [-1, 3]] [] [-1, 1, 2, 3]
    [[1, 2], [-1, 3], [2, 3]] (by unfold LitsClosed; decide) (by decide) rfl

/-- C1: the claim states that `solve` returns true exactly on satisfiable
formulas.  The code reads the uninitialized `conflict` variable when
`removeUnitClauses` detects no conflict, so the answer depends on the
indeterminate value `g`: on the empty (satisfiable) formula the solver
answers false when the stale stack content is `true` and true when it is
`false`. -/
theorem claim1_solve_reads_uninitialized_conflict :
    solve true 1 [] [] [] = some false
    ∧ solve false 2 [] [] [] = some true
    ∧ satisfiable [] := by
  refine ⟨?_, ?_, ⟨fun _ => true, rfl⟩⟩
  · simp [solve, removeAllTautologyClauses, removeUnitClauses, rucLoop]
  · simp [solve, solveRec, removeAllTautologyClauses, removeUnitClauses, rucLoop,
      removePureClauses]

/-- C2: the claim states that `removeUnitClauses` reports no conflict in
every case in which it does not derive one, so that `solve` proceeds.  On
the satisfiable formula consisting of the single unit clause `1` the
function derives no conflict (its detected flag is false and the unit is
simply propagated), yet `solve` reads the uninitialized `conflict`
variable, and with stale content `true` it returns false. -/
theorem claim2_conflict_flag_left_stale :
    removeUnitClauses [[1]] [] = ([], [-1], false)
    ∧ solve true 1 [[1]] [1] [] = some false
    ∧ satisfiable [[1]] := by
  refine ⟨?_, ?_, ⟨fun _ => true, rfl⟩⟩
  · simp [removeUnitClauses, rucLoop, isUnitClause, insertLit, insLitAux,
      removeFalseLiterals, rflLoop]
  · simp [solve, removeAllTautologyClauses, removeUnitClauses, rucLoop, isUnitClause,
      insertLit, insLitAux, removeFalseLiterals, rflLoop]

/-- C3: the claim states that candidate elimination atoms are considered in
descending occurrence count.  `solveRec` iterates the occurrence map with
`rbegin()`, which is descending atom value: on the formula
`(-2 v 1), (1 v 2), (1 v 3)` the order is `3, 2, 1` although atom 3 occurs
once and atom 1 three times, so the first atom considered is not one of
maximal occurrence count. -/
theorem claim3_atom_order_is_descending_atom_value :
    atomOrder [[-2, 1], [1, 2], [1, 3]] = [3, 2, 1]
    ∧ occCount [[-2, 1], [1, 2], [1, 3]] 1 = 3
    ∧ occCount [[-2, 1], [1, 2], [1, 3]] 3 = 1 :=
  ⟨rfl, rfl, rfl⟩

/-- C4: resolving clauses that contain the positive respectively negative
literal of the chosen atom yields the union of the two clauses minus both
polarities of the atom, and when the pair loop finishes without
short-circuiting, every cross pair was resolved: its resolvent is in the
resulting formula unless tautological, and no pair produced an empty or
unit resolvent. -/
theorem claim4_resolution_covers_all_pairs :
    (∀ (c1 c2 : Clause) (a x : Int), a ∈ c1 → -a ∈ c2 →
      (x ∈ resolve c1 c2 a ↔ (x ∈ c1 ∨ x ∈ c2) ∧ x ≠ a ∧ x ≠ -a))
    ∧ (∀ (a : Int) (cw cwo : List Clause) (f : NormalForm) (fls : LitSet) (f1 : NormalForm),
        resolveAllPairs a cw cwo f fls = ResOut.ok f1 →
        ∀ c1 ∈ cw, ∀ c2 ∈ cwo,
          (resolve c1 c2 a ∈ f1 ∨ isTautologicClause (resolve c1 c2 a) = true)
          ∧ resolve c1 c2 a ≠ [] ∧ isUnitClause (resolve c1 c2 a) = false) := by
  constructor
  · intro c1 c2 a x h1 h2
    exact mem_resolve h1 h2
  · intro a cw cwo f fls f1 h c1 hc1 c2 hc2
    rcases resolveAllPairs_ok_spec cw cwo f fls f1 h with ⟨_, hpairs, hshape⟩
    exact ⟨hpairs c1 hc1 c2 hc2, hshape c1 hc1 c2 hc2⟩

theorem claim4_witness :
    ((2:Int) ∈ resolve [1, 2] [-1, 3] 1
      ↔ (((2:Int) ∈ ([1, 2] : Clause) ∨ (2:Int) ∈ ([-1, 3] : Clause))
          ∧ (2:Int) ≠ 1 ∧ (2:Int) ≠ -1))
    ∧ ((resolve [1, 2] [-1, 3] 1 ∈ ([[1, 2], [-1, 3], [2, 3]] : NormalForm)
          ∨ isTautologicClause (resolve [1, 2] [-1, 3] 1) = true)
        ∧ resolve [1, 2] [-1, 3] 1 ≠ [] ∧ isUnitClause (resolve [1, 2] [-1, 3] 1) = false) :=
  ⟨claim4_resolution_covers_all_pairs.1 [1, 2] [-1, 3] 1 2 (by decide) (by decide),
   claim4_resolution_covers_all_pairs.2 1 [[1, 2]] [[-1, 3]] [[1, 2], [-1, 3]] []
     [[1, 2], [-1, 3], [2, 3]] rfl [1, 2] (by decide) [-1, 3] (by decide)⟩

/-- C7: if atom `a` occurs in the formula only as the positive literal `a`
(and, as maintained by the solver, `a` is in the literal universe over
which the pass iterates), then after one run of `removePureClauses` no
clause contains `a`, and the pass preserves satisfiability. -/
theorem claim7_pure_literal_elimination (a : Int) (lits : LitSet) (f : NormalForm)
    (ha : 0 < a) (hmem : a ∈ lits) (hpos : ∀ c ∈ f, -a ∉ c) (h0 : ZeroFree f) :
    (∀ c ∈ removePureClauses lits f, a ∉ c)
    ∧ (satisfiable (removePureClauses lits f) ↔ satisfiable f) :=
  ⟨removePureClauses_purges lits f hmem hpos, satisfiable_removePureClauses h0⟩

theorem claim7_witness :
    (∀ c ∈ removePureClauses [1, 2] [[1, 2], [-1]], (2:Int) ∉ c)
    ∧ (satisfiable (removePureClauses [1, 2] [[1, 2], [-1]]) ↔ satisfiable [[1, 2], [-1]]) :=
  claim7_pure_literal_elimination 2 [1, 2] [[1, 2], [-1]] (by decide) (by decide)
    (by decide) (by unfold ZeroFree; decide)

/-- C8: a clause is reported tautological exactly when it contains a
literal together with its negation, and removing all tautological clauses
never changes satisfiability of the formula (for well-formed clauses,
which never contain the reserved literal 0). -/
theorem claim8_tautology_soundness :
    (∀ c : Clause, (0:Int) ∉ c → (isTautologicClause c = true ↔ ∃ l ∈ c, -l ∈ c))
    ∧ (∀ f : NormalForm, ZeroFree f →
        (satisfiable (removeAllTautologyClauses f) ↔ satisfiable f)) :=
  ⟨fun _ h0 => isTautologicClause_iff h0, fun _ h0 => satisfiable_removeAllTautologyClauses h0⟩

theorem claim8_witness :
    (isTautologicClause [-1, 1] = true ↔ ∃ l ∈ ([-1, 1] : Clause), -l ∈ ([-1, 1] : Clause))
    ∧ (satisfiable (removeAllTautologyClauses [[-1, 1], [2]]) ↔ satisfiable [[-1, 1], [2]]) :=
  ⟨claim8_tautology_soundness.1 [-1, 1] (by decide),
   claim8_tautology_soundness.2 [[-1, 1], [2]] (by unfold ZeroFree; decide)⟩

theorem solveRec_total : ∀ (N : Nat) (g : Bool) (f : NormalForm) (lits fls : LitSet),
    LitsClosed f lits → FlsClean f fls → f.Nodup → lits.Nodup → ZeroFree f →
    solveMeasure lits fls < N →
    ∃ n b, solveRec g n f lits fls = some b := by
  intro N
  induction N with
  | zero =>
    intro g f lits fls _ _ _ _ _ hM
    omega
  | succ N ihN =>
    intro g f lits fls hclosed hclean hnodup hlnodup hzero hM
    by_cases h1 : removePureClauses lits f = []
    · exact ⟨1, true, by rw [solveRec_succ, if_pos h1]⟩
    · by_cases h2 : removePureClauses lits f = [[]]
      · exact ⟨1, false, by rw [solveRec_succ, if_neg h1, if_pos h2]⟩
      · have hf1sub : ∀ c ∈ removePureClauses lits f, c ∈ f :=
          fun c hc => removePureClauses_subset hc
        have hf1closed : LitsClosed (removePureClauses lits f) lits :=
          fun c hc l hl => hclosed c (hf1sub c hc) l hl
        have hf1nodup : (removePureClauses lits f).Nodup := removePureClauses_nodup hnodup
        have hf1zero : ZeroFree (removePureClauses lits f) :=
          fun c hc => hzero c (hf1sub c hc)
        have hF : ∀ m : Int, -m ∈ fls → ∀ c ∈ removePureClauses lits f, m ∉ c := by
          intro m hmfls c hc hmc
          have hmlits : m ∈ lits := hclosed c (hf1sub c hc) m hmc
          have hpure : ∀ d ∈ f, -m ∉ d := fun d hd hmd => hclean d hd (-m) hmd hmfls
          exact removePureClauses_purges lits f hmlits hpure c hc hmc
        have Q : ∀ (atoms : List Int) (found : Bool) (fk : NormalForm) (litsk flsk : LitSet),
            LitsClosed fk litsk → fk.Nodup → litsk.Nodup → ZeroFree fk →
            (∀ c ∈ fk, ∀ l ∈ c, ∃ d ∈ removePureClauses lits f, l ∈ d) →
            (∀ a ∈ atoms, 0 < a ∧ (a ∈ litsk ∨ -a ∈ litsk)) →
            atoms.Nodup →
            ((litsk = lits ∧ flsk = fls) ∨ litsk.length < lits.length) →
            (found = true → litsk.length < lits.length) →
            ∃ n b, atomLoop g n atoms found fk litsk flsk = some b := by
          intro atoms
          induction atoms with
          | nil =>
            intro found fk litsk flsk hkclosed hknodup hklnodup hkzero hklit hvi hvii hviii hfound
            cases found with
            | false =>
              refine ⟨0, true, ?_⟩
              rw [atomLoop_nil]
              simp
            | true =>
              have hlen : litsk.length < lits.length := hfound rfl
              rcases hru : removeUnitClauses (removeAllTautologyClauses fk) flsk
                with ⟨f2, fls2, detected⟩
              by_cases hdg : (detected || g) = true
              · refine ⟨0 + 1, false, ?_⟩
                have hstep : atomLoop g (0 + 1) ([] : List Int) true fk litsk flsk
                    = solve g (0 + 1) fk litsk flsk := by
                  rw [atomLoop_nil]
                  simp
                rw [hstep, solve_succ, hru]
                simp only []
                rw [if_pos hdg]
              · have hdet : detected = false := by
                  cases detected
                  · rfl
                  · exact absurd (by simp) hdg
                have hruc : rucLoop [] (removeAllTautologyClauses fk) flsk
                    = (f2, fls2, detected) := hru
                have htautsub : ∀ c ∈ removeAllTautologyClauses fk, c ∈ fk :=
                  fun c hc => (List.mem_filter.mp hc).1
                have hf2lit : ∀ c ∈ f2, ∀ l ∈ c, ∃ d ∈ fk, l ∈ d := by
                  intro c hc l hl
                  have hcrw : c ∈ (rucLoop [] (removeAllTautologyClauses fk) flsk).1 := by
                    simp only [hruc]
                    exact hc
                  rcases rucLoop_literals (removeAllTautologyClauses fk) [] flsk c hcrw l hl
                    with ⟨d, hd, hld⟩
                  rcases hd with h0 | hdm
                  · exact absurd h0 (List.not_mem_nil d)
                  · exact ⟨d, htautsub d hdm, hld⟩
                have hclosed2 : LitsClosed f2 litsk := by
                  intro c hc l hl
                  rcases hf2lit c hc l hl with ⟨d, hd, hld⟩
                  exact hkclosed d hd l hld
                have hzero2 : ZeroFree f2 := by
                  intro c hc h0
                  rcases hf2lit c hc 0 h0 with ⟨d, hd, h0d⟩
                  exact hkzero d hd h0d
                have hnodup2 : f2.Nodup := by
                  have h := rucLoop_nodup (removeAllTautologyClauses fk) [] flsk
                    (by simpa using hknodup.filter _)
                  simp only [hruc] at h
                  exact h
                have hflag2 : (rucLoop [] (removeAllTautologyClauses fk) flsk).2.2 = false := by
                  simp only [hruc]
                  exact hdet
                have hclean2 : FlsClean f2 fls2 := by
                  have h := (rucLoop_c5 (removeAllTautologyClauses fk) [] flsk (by simp) hflag2).1
                  simp only [hruc] at h
                  exact h
                have hmeas2 : solveMeasure litsk fls2 < N := by
                  have h := @solveMeasure_lt_of_length_lt litsk lits fls2 fls hlen
                  omega
                rcases ihN g f2 litsk fls2 hclosed2 hclean2 hnodup2 hklnodup hzero2 hmeas2
                  with ⟨n2, b, hrec⟩
                refine ⟨n2 + 1, b, ?_⟩
                have hstep : atomLoop g (n2 + 1) ([] : List Int) true fk litsk flsk
                    = solve g (n2 + 1) fk litsk flsk := by
                  rw [atomLoop_nil]
                  simp
                rw [hstep, solve_succ, hru]
                simp only []
                rw [if_neg hdg]
                exact hrec
          | cons a rest ihQ =>
            intro found fk litsk flsk hkclosed hknodup hklnodup hkzero hklit hvi hvii hviii hfound
            by_cases hskip : allClausesWithGivenLiteral fk a = []
                ∨ allClausesWithGivenLiteral fk (-a) = []
            · rcases ihQ found fk litsk flsk hkclosed hknodup hklnodup hkzero hklit
                (fun b hb => hvi b (List.mem_cons_of_mem _ hb)) hvii.of_cons hviii hfound
                with ⟨n, b, hn⟩
              refine ⟨n, b, ?_⟩
              rw [atomLoop_skip g n a rest found fk litsk flsk hskip]
              exact hn
            · rcases hres : resolveAllPairs a (allClausesWithGivenLiteral fk a)
                  (allClausesWithGivenLiteral fk (-a)) fk flsk with _ | ⟨f3, fls3, confl⟩ | f3
              · refine ⟨0, false, ?_⟩
                rw [atomLoop_res g 0 a rest found fk litsk flsk hskip, hres]
              · by_cases hcg : (confl || g) = true
                · refine ⟨0, false, ?_⟩
                  rw [atomLoop_res g 0 a rest found fk litsk flsk hskip, hres]
                  simp only []
                  rw [if_pos hcg]
                · have hconfl : confl = false := by
                    cases confl
                    · rfl
                    · exact absurd (by simp) hcg
                  rcases resolveAllPairs_unit_spec (allClausesWithGivenLiteral fk a)
                      (allClausesWithGivenLiteral fk (-a)) fk flsk f3 fls3 confl hres
                    with ⟨fmid, m, hmemb, hndimp, hpair, hrfl⟩
                  rcases hpair with ⟨c1, hc1, c2, hc2, hres1⟩
                  have hfmidnodup : fmid.Nodup := hndimp hknodup
                  have hfmidlit : ∀ c ∈ fmid, ∀ l ∈ c, ∃ d ∈ fk, l ∈ d := by
                    intro c hc l hl
                    rcases hmemb c hc with hcf | ⟨d1, hd1, d2, hd2, hde⟩
                    · exact ⟨c, hcf, hl⟩
                    · subst hde
                      rcases resolve_subset hl with hx | hx
                      · exact ⟨d1, (List.mem_filter.mp hd1).1, hx⟩
                      · exact ⟨d2, (List.mem_filter.mp hd2).1, hx⟩
                  have hrfl' : rflLoop [] fmid (insertLit (-m) flsk) = (f3, fls3, confl) := hrfl
                  have hm_fk : ∃ d ∈ fk, m ∈ d := by
                    have hmr : m ∈ resolve c1 c2 a := by
                      rw [hres1]
                      simp
                    rcases resolve_subset hmr with h | h
                    · exact ⟨c1, (List.mem_filter.mp hc1).1, h⟩
                    · exact ⟨c2, (List.mem_filter.mp hc2).1, h⟩
                  have hmlitsk : m ∈ litsk := by
                    rcases hm_fk with ⟨d, hd, hmd⟩
                    exact hkclosed d hd m hmd
                  have hflssub : ∀ l ∈ insertLit (-m) flsk, l ∈ fls3 := by
                    intro l hl
                    have h := rflLoop_fls_mono [] fmid (insertLit (-m) flsk) l hl
                    simp only [hrfl'] at h
                    exact h
                  have hmeas : solveMeasure litsk fls3 < solveMeasure lits fls := by
                    rcases hviii with ⟨hleq, hfeq⟩ | hlt
                    · have hnm : -m ∉ flsk := by
                        intro hmem
                        rcases hm_fk with ⟨d, hd, hmd⟩
                        rcases hklit d hd m hmd with ⟨e, he, hme⟩
                        rw [hfeq] at hmem
                        exact hF m hmem e he hme
                      have hgrow : solveMeasure litsk fls3 < solveMeasure litsk flsk :=
                        solveMeasure_lt_of_fls_grow
                          (fun l hl => hflssub l (mem_insertLit.mpr (Or.inr hl)))
                          hmlitsk hnm (hflssub (-m) (mem_insertLit.mpr (Or.inl rfl)))
                      calc solveMeasure litsk fls3 < solveMeasure litsk flsk := hgrow
                        _ = solveMeasure lits fls := by rw [hleq, hfeq]
                    · exact @solveMeasure_lt_of_length_lt litsk lits fls3 fls hlt
                  have hclosed3 : LitsClosed f3 litsk := by
                    intro c hc l hl
                    have hcrw : c ∈ (rflLoop [] fmid (insertLit (-m) flsk)).1 := by
                      simp only [hrfl']
                      exact hc
                    rcases rflLoop_literals [] fmid (insertLit (-m) flsk) c hcrw l hl
                      with ⟨d, hd, hld⟩
                    rcases hd with h0 | hdm
                    · exact absurd h0 (List.not_mem_nil d)
                    · rcases hfmidlit d hdm l hld with ⟨e, he, hle⟩
                      exact hkclosed e he l hle
                  have hzero3 : ZeroFree f3 := by
                    intro c hc h0
                    have hcrw : c ∈ (rflLoop [] fmid (insertLit (-m) flsk)).1 := by
                      simp only [hrfl']
                      exact hc
                    rcases rflLoop_literals [] fmid (insertLit (-m) flsk) c hcrw 0 h0
                      with ⟨d, hd, hld⟩
                    rcases hd with hd0 | hdm
                    · exact absurd hd0 (List.not_mem_nil d)
                    · rcases hfmidlit d hdm 0 hld with ⟨e, he, hle⟩
                      exact hkzero e he hle
                  have hnodup3 : f3.Nodup := by
                    have h := rflLoop_nodup [] fmid (insertLit (-m) flsk)
                      (by simpa using hfmidnodup)
                    simp only [hrfl'] at h
                    exact h
                  have hflag3 : (rflLoop [] fmid (insertLit (-m) flsk)).2.2 = false := by
                    simp only [hrfl']
                    exact hconfl
                  have hclean3 : FlsClean f3 fls3 := by
                    have h := rflLoop_clean [] fmid (insertLit (-m) flsk) (by simp) hflag3
                    simp only [hrfl'] at h
                    exact h
                  have hmeas3 : solveMeasure litsk fls3 < N := by omega
                  rcases ihN g f3 litsk fls3 hclosed3 hclean3 hnodup3 hklnodup hzero3 hmeas3
                    with ⟨n2, b, hrec⟩
                  refine ⟨n2, b, ?_⟩
                  rw [atomLoop_res g n2 a rest found fk litsk flsk hskip, hres]
                  simp only []
                  rw [if_neg hcg]
                  exact hrec
              · have hf3nodup : f3.Nodup :=
                  resolveAllPairs_ok_nodup (allClausesWithGivenLiteral fk a)
                    (allClausesWithGivenLiteral fk (-a)) fk flsk f3 hknodup hres
                have hnew_closed := elimination_closed hkclosed hknodup hres
                have hnew_nodup :
                    (eraseClauses (allClausesWithGivenLiteral fk (-a))
                      (eraseClauses (allClausesWithGivenLiteral fk a) f3)).Nodup :=
                  nodup_eraseClauses (nodup_eraseClauses hf3nodup)
                have hnew_lnodup : (eliminateLits litsk a).Nodup := eliminateLits_nodup hklnodup
                have hf3lit : ∀ c ∈ f3, ∀ l ∈ c, ∃ d ∈ fk, l ∈ d :=
                  resolveAllPairs_ok_litsub hres
                have hnew_lit_fk : ∀ c ∈ eraseClauses (allClausesWithGivenLiteral fk (-a))
                      (eraseClauses (allClausesWithGivenLiteral fk a) f3),
                    ∀ l ∈ c, ∃ d ∈ fk, l ∈ d :=
                  fun c hc l hl =>
                    hf3lit c (mem_of_mem_eraseClauses (mem_of_mem_eraseClauses hc)) l hl
                have hnew_zero : ZeroFree (eraseClauses (allClausesWithGivenLiteral fk (-a))
                    (eraseClauses (allClausesWithGivenLiteral fk a) f3)) := by
                  intro c hc h0
                  rcases hnew_lit_fk c hc 0 h0 with ⟨d, hd, h0d⟩
                  exact hkzero d hd h0d
                have hnew_litf1 : ∀ c ∈ eraseClauses (allClausesWithGivenLiteral fk (-a))
                      (eraseClauses (allClausesWithGivenLiteral fk a) f3),
                    ∀ l ∈ c, ∃ d ∈ removePureClauses lits f, l ∈ d := by
                  intro c hc l hl
                  rcases hnew_lit_fk c hc l hl with ⟨d, hd, hld⟩
                  exact hklit d hd l hld
                have hapos : 0 < a := (hvi a (List.mem_cons_self a rest)).1
                have ha_lits : a ∈ litsk ∨ -a ∈ litsk := (hvi a (List.mem_cons_self a rest)).2
                have hlen2 : (eliminateLits litsk a).length < litsk.length :=
                  eliminateLits_length_lt ha_lits
                have hlen_lits : (eliminateLits litsk a).length < lits.length := by
                  rcases hviii with ⟨hleq, _⟩ | hlt
                  · rw [← hleq]
                    exact hlen2
                  · omega
                have hvi2 : ∀ b ∈ rest, 0 < b
                    ∧ (b ∈ eliminateLits litsk a ∨ -b ∈ eliminateLits litsk a) := by
                  intro b hb
                  rcases hvi b (List.mem_cons_of_mem _ hb) with ⟨hbpos, hbmem⟩
                  have hba : b ≠ a := by
                    intro he
                    subst he
                    exact (List.nodup_cons.mp hvii).1 hb
                  refine ⟨hbpos, ?_⟩
                  rcases hbmem with hx | hx
                  · exact Or.inl (mem_eliminateLits hx hba (by omega))
                  · refine Or.inr (mem_eliminateLits hx (by omega) ?_)
                    intro he
                    apply hba
                    omega
                rcases ihQ true
                    (eraseClauses (allClausesWithGivenLiteral fk (-a))
                      (eraseClauses (allClausesWithGivenLiteral fk a) f3))
                    (eliminateLits litsk a) (eliminateLits flsk a)
                    hnew_closed hnew_nodup hnew_lnodup hnew_zero hnew_litf1 hvi2
                    hvii.of_cons (Or.inr hlen_lits) (fun _ => hlen_lits) with ⟨n, b, hn⟩
                refine ⟨n, b, ?_⟩
                rw [atomLoop_res g n a rest found fk litsk flsk hskip, hres]
                exact hn
        rcases Q (atomOrder (removePureClauses lits f)) false (removePureClauses lits f)
            lits fls hf1closed hf1nodup hlnodup hf1zero
            (fun c hc l hl => ⟨c, hc, hl⟩)
            (atomOrder_spec hf1closed hf1zero)
            (atomOrder_nodup (removePureClauses lits f))
            (Or.inl ⟨rfl, rfl⟩)
            (fun h => Bool.noConfusion h) with ⟨n, b, hn⟩
        refine ⟨n + 1, b, ?_⟩
        rw [solveRec_succ, if_neg h1, if_neg h2]
        exact hn

/-- C6: the literal universe never grows during a solve (the elimination
step only erases the atom's two literals from it), it strictly shrinks
whenever an atom one of whose literals is present is eliminated, and on
every finite well-formed input (duplicate-free formula over nonzero
literals all in the duplicate-free universe) the mutually recursive
`solve`/`solveRec` pair reaches a Boolean answer with some finite fuel. -/
theorem claim6_termination :
    (∀ (s : LitSet) (a : Int), ∀ l ∈ eliminateLits s a, l ∈ s)
    ∧ (∀ (s : LitSet) (a : Int), a ∈ s ∨ -a ∈ s →
        (eliminateLits s a).length < s.length)
    ∧ (∀ (g : Bool) (f : NormalForm) (lits : LitSet),
        LitsClosed f lits → f.Nodup → lits.Nodup → ZeroFree f →
        ∃ n b, solve g n f lits [] = some b) := by
  refine ⟨?_, ?_, ?_⟩
  · intro s a l hl
    exact mem_of_mem_eliminateLits hl
  · intro s a h
    exact eliminateLits_length_lt h
  · intro g f lits hclosed hnodup hlnodup hzero
    rcases hru : removeUnitClauses (removeAllTautologyClauses f) [] with ⟨f2, fls2, detected⟩
    by_cases hdg : (detected || g) = true
    · refine ⟨0 + 1, false, ?_⟩
      rw [solve_succ, hru]
      simp only []
      rw [if_pos hdg]
    · have hdet : detected = false := by
        cases detected
        · rfl
        · exact absurd (by simp) hdg
      have hruc : rucLoop [] (removeAllTautologyClauses f) [] = (f2, fls2, detected) := hru
      have htautsub : ∀ c ∈ removeAllTautologyClauses f, c ∈ f :=
        fun c hc => (List.mem_filter.mp hc).1
      have hf2lit : ∀ c ∈ f2, ∀ l ∈ c, ∃ d ∈ f, l ∈ d := by
        intro c hc l hl
        have hcrw : c ∈ (rucLoop [] (removeAllTautologyClauses f) []).1 := by
          simp only [hruc]
          exact hc
        rcases rucLoop_literals (removeAllTautologyClauses f) [] [] c hcrw l hl
          with ⟨d, hd, hld⟩
        rcases hd with h0 | hdm
        · exact absurd h0 (List.not_mem_nil d)
        · exact ⟨d, htautsub d hdm, hld⟩
      have hclosed2 : LitsClosed f2 lits := by
        intro c hc l hl
        rcases hf2lit c hc l hl with ⟨d, hd, hld⟩
        exact hclosed d hd l hld
      have hzero2 : ZeroFree f2 := by
        intro c hc h0
        rcases hf2lit c hc 0 h0 with ⟨d, hd, h0d⟩
        exact hzero d hd h0d
      have hnodup2 : f2.Nodup := by
        have h := rucLoop_nodup (removeAllTautologyClauses f) [] []
          (by simpa using hnodup.filter _)
        simp only [hruc] at h
        exact h
      have hflag2 : (rucLoop [] (removeAllTautologyClauses f) []).2.2 = false := by
        simp only [hruc]
        exact hdet
      have hclean2 : FlsClean f2 fls2 := by
        have h := (rucLoop_c5 (removeAllTautologyClauses f) [] [] (by simp) hflag2).1
        simp only [hruc] at h
        exact h
      rcases solveRec_total (solveMeasure lits fls2 + 1) g f2 lits fls2 hclosed2 hclean2
        hnodup2 hlnodup hzero2 (by omega) with ⟨n2, b, hrec⟩
      refine ⟨n2 + 1, b, ?_⟩
      rw [solve_succ, hru]
      simp only []
      rw [if_neg hdg]
      exact hrec

theorem claim6_witness :
    (∀ l ∈ eliminateLits [-1, 1, 2] 1, l ∈ ([-1, 1, 2] : LitSet))
    ∧ ((eliminateLits [-1, 1, 2] 1).length < ([-1, 1, 2] : LitSet).length)
    ∧ (∃ n b, solve false n [[1, 2]] [1, 2] [] = some b) :=
  ⟨claim6_termination.1 [-1, 1, 2] 1,
   claim6_termination.2.1 [-1, 1, 2] 1 (by decide),
   claim6_termination.2.2 false [[1, 2]] [1, 2] (by unfold LitsClosed; decide) (by decide)
     (by decide) (by unfold ZeroFree; decide)⟩

end DP
